import Mathlib

/-! # Imcode: embedding a file in a bitmap image

A shallow embedding of `imcode.cpp` and a verification of its container format.

Modelling conventions.

* A byte is a `Fin 256`; a buffer (`Array` in the source, a pointer with a length) is the list
  of its bytes. The length of a buffer is a `size_t` and no object is larger than
  `PTRDIFF_MAX`, so the buffers the program reads or receives from the codec are shorter than
  `2 ^ 63` bytes; theorems state this as a hypothesis on the buffer.
* Unsigned machine integers are natural numbers reduced modulo `2 ^ width` wherever the
  source computes with them; `int32_t` values are integers obtained by the modular
  conversion `toInt32`.
* The host is little-endian and `#pragma pack(1)` removes all padding, so writing an object
  writes its fields in declaration order, least significant byte first.
* Streams are opened in a mode that does not translate bytes. An input stream is the list of
  bytes not yet read. An output stream is a path in an explicit `FileSystem`; every write
  appends to the file at once and succeeds.
* Exceptions are values of `Error`. Behaviour the language leaves undefined (division by
  zero, use of bytes that a short read left uninitialised) is the outcome `Error.undefined`,
  after which nothing is known of the result or of the files.
* Memory allocation is not modelled: every allocation yields a buffer of the requested
  length, and `std::bad_alloc` is not among the outcomes.
* The square root is the IEEE 754 double-precision one, correctly rounded.
* `zstd.h` is an external library: its functions are the fields of a parameter `Zstd`.
-/

namespace Imcode

/-! ## Bytes and machine integers -/

abbrev Byte := Fin 256

/-- The byte with value `v mod 256`. -/
def byte (v : Nat) : Byte :=
  ⟨v % 256, Nat.mod_lt v (by decide)⟩

/-- The `w` bytes of the unsigned value `v`, least significant first: the object representation
of a `w`-byte unsigned integer holding `v mod 256 ^ w`. -/
def leBytes : Nat → Nat → List Byte
  | 0, _ => []
  | w + 1, v => byte v :: leBytes w (v / 256)

/-- The unsigned value whose little-endian representation is the given bytes. -/
def leValue : List Byte → Nat
  | [] => 0
  | b :: bs => b.val + 256 * leValue bs

/-- The unsigned little-endian field of `width` bytes found at offset `off` of a stream. -/
def fieldAt (s : List Byte) (off width : Nat) : Nat :=
  leValue ((s.drop off).take width)

/-- Conversion of an integer to `uint32_t` (reduction modulo `2 ^ 32`). -/
def toU32 (x : Int) : Nat :=
  (x % 2 ^ 32).toNat

/-- Conversion of an unsigned value to `int32_t` (modular, two's complement). -/
def toInt32 (v : Nat) : Int :=
  if v % 2 ^ 32 < 2 ^ 31 then ((v % 2 ^ 32 : Nat) : Int) else ((v % 2 ^ 32 : Nat) : Int) - 2 ^ 32

/-! ## Errors -/

/-- Outcomes other than normal return: a `std::runtime_error` with its message, or undefined
behaviour. -/
inductive Error where
  | runtime_error (what : String)
  | undefined
  deriving DecidableEq, Repr

/-! ## The bitmap header -/

/-- The packed `BMPHeader` record. -/
structure BMPHeader where
  id : Nat
  size : Nat
  reserved0 : Nat
  reserved1 : Nat
  offset : Nat
  bitmapinfoheader_size : Nat
  x : Int
  y : Int
  planes : Nat
  depth : Nat
  compression : Nat
  pixels_size : Nat
  horizontal_res : Int
  vertical_res : Int
  palette : Nat
  important : Nat
  deriving DecidableEq, Repr

/-- The value of `sizeof(BMPHeader)` under `#pragma pack(1)`: the sum of the field widths. -/
def BMPHeader.sizeof : Nat :=
  2 + 4 + 2 + 2 + 4 + 4 + 4 + 4 + 2 + 2 + 4 + 4 + 4 + 4 + 4 + 4

/-- The constructor `BMPHeader(int x, int y, unsigned int colour_depth_bytes)`; the remaining
fields take their default member initialisers. The products are computed in `unsigned int`. -/
def BMPHeader.new (x y : Int) (colour_depth_bytes : Nat) : BMPHeader :=
  let offset := BMPHeader.sizeof % 2 ^ 32
  let pixels_size := ((colour_depth_bytes * toU32 x) % 2 ^ 32 * toU32 y) % 2 ^ 32
  { id := 0x4D42
    size := (pixels_size + offset) % 2 ^ 32
    reserved0 := 0
    reserved1 := 0
    offset := offset
    bitmapinfoheader_size := 40
    x := x
    y := y
    planes := 1
    depth := ((colour_depth_bytes * 8) % 2 ^ 32) % 2 ^ 16
    compression := 0
    pixels_size := pixels_size
    horizontal_res := 2835
    vertical_res := 2835
    palette := 0
    important := 0 }

/-- The object representation of a header: what `Write(file, header)` puts on the stream. -/
def BMPHeader.bytes (h : BMPHeader) : List Byte :=
  leBytes 2 h.id ++ leBytes 4 h.size ++ leBytes 2 h.reserved0 ++ leBytes 2 h.reserved1 ++
  leBytes 4 h.offset ++ leBytes 4 h.bitmapinfoheader_size ++ leBytes 4 (toU32 h.x) ++
  leBytes 4 (toU32 h.y) ++ leBytes 2 h.planes ++ leBytes 2 h.depth ++
  leBytes 4 h.compression ++ leBytes 4 h.pixels_size ++ leBytes 4 (toU32 h.horizontal_res) ++
  leBytes 4 (toU32 h.vertical_res) ++ leBytes 4 h.palette ++ leBytes 4 h.important

/-! ## Files and streams -/

/-- The file system as far as the program observes it: what opening a path for reading
yields (`none` when the open fails) and whether a path can be opened for writing. A file
that was opened for writing can be read back afterwards. -/
structure FileSystem where
  content : String → Option (List Byte)
  writable : String → Bool

/-- The function `OpenFileRead`: the bytes of the file, or the exception. -/
def OpenFileRead (fs : FileSystem) (path : String) : Except Error (List Byte) :=
  match fs.content path with
  | some bytes => .ok bytes
  | none => .error (.runtime_error ("Couldn't open '" ++ path ++ "' for reading"))

/-- The function `OpenFileWrite`: opening creates the file or truncates it. -/
def OpenFileWrite (fs : FileSystem) (path : String) : Except Error FileSystem :=
  if fs.writable path then
    .ok { fs with content := fun p => if p = path then some [] else fs.content p }
  else .error (.runtime_error ("Couldn't open '" ++ path ++ "' for writing"))

/-- The function `Read(in, t, n)` on bytes: the next `n` bytes and the rest of the stream.
When fewer than `n` bytes are left the destination keeps uninitialised bytes and every later
read stores nothing, so whatever is computed from them is undefined. -/
def Read (inp : List Byte) (n : Nat) : Except Error (List Byte × List Byte) :=
  if n ≤ inp.length then .ok (inp.take n, inp.drop n) else .error .undefined

/-- The instance `Read<BMPHeader>(in)`; the caller discards the header read. -/
def Read_BMPHeader (inp : List Byte) : Except Error (List Byte × List Byte) :=
  Read inp BMPHeader.sizeof

/-- The instance `Read<uint64_t>(in)`. -/
def Read_uint64_t (inp : List Byte) : Except Error (Nat × List Byte) :=
  match Read inp 8 with
  | .ok (bytes, rest) => .ok (leValue bytes, rest)
  | .error e => .error e

/-- The function `Write(out, t, n)` on bytes: appends to the file behind the stream. -/
def Write (fs : FileSystem) (path : String) (bytes : List Byte) : FileSystem :=
  { fs with content := fun p => if p = path then (fs.content p).map (· ++ bytes) else fs.content p }

/-- The function `ReadArray`. -/
def ReadArray (inp : List Byte) (n : Nat) : Except Error (List Byte × List Byte) :=
  Read inp n

/-- The function `WriteArray`. -/
def WriteArray (fs : FileSystem) (path : String) (array : List Byte) : FileSystem :=
  Write fs path array

/-- The function `ReadEntireFile`: the size found by seeking to the end is a `uint64_t`. -/
def ReadEntireFile (fs : FileSystem) (path : String) : Except Error (List Byte) :=
  match OpenFileRead fs path with
  | .error e => .error e
  | .ok file =>
    match ReadArray file (file.length % 2 ^ 64) with
    | .error e => .error e
    | .ok (data, _) => .ok data

/-! ## The compression codec -/

/-- The functions of `zstd.h` the program calls. `compress dstCapacity src` stands for
`ZSTD_compress` at level 0 and `decompress dstCapacity src` for `ZSTD_decompress`: either the
bytes written to the destination (their count is the returned size), or the name
`ZSTD_getErrorName` gives to the returned error code. -/
structure Zstd where
  compressBound : Nat → Nat
  compress : Nat → List Byte → Except String (List Byte)
  decompress : Nat → List Byte → Except String (List Byte)

/-- The function `Compress`: the produced bytes are the first `size` bytes of the result. -/
def Compress (zstd : Zstd) (array : List Byte) : Except Error (List Byte) :=
  let cap := zstd.compressBound array.length
  match zstd.compress cap array with
  | .error name => .error (.runtime_error name)
  | .ok result => .ok result

/-- The function `Decompress`: on success the `size` bytes of the result are the bytes
produced. -/
def Decompress (zstd : Zstd) (array : List Byte) (size : Nat) : Except Error (List Byte) :=
  match zstd.decompress size array with
  | .error name => .error (.runtime_error name)
  | .ok result =>
    if result.length ≠ size then .error (.runtime_error "Size mismatch") else .ok result

/-! ## The sizing algorithm -/

/-- The instance `DivCeil<uint64_t>`; a zero divisor is undefined behaviour (`none`). -/
def DivCeil (a b : Nat) : Option Nat :=
  if b = 0 then none else some (((a + b + (2 ^ 64 - 1)) % 2 ^ 64) / b)

/-- The value of a `uint64_t` converted to `double`: exact below `2 ^ 53`, otherwise rounded
to 53 significant bits, ties to even. -/
def toDouble (x : Nat) : Nat :=
  if x < 2 ^ 53 then x
  else
    let sh := Nat.log 2 x - 52
    let q := x / 2 ^ sh
    let r := x % 2 ^ sh
    if 2 ^ sh < 2 * r ∨ (2 * r = 2 ^ sh ∧ q % 2 = 1) then (q + 1) * 2 ^ sh else q * 2 ^ sh

/-- The integer part of the correctly rounded double-precision square root of `d`, for a
double `d` with an integer value of at most `2 ^ 64`. Let `k` be the integer square root of
`d` and `m = k + 1`. If `d` is a square the root is `k`. Otherwise the rounded root lies in
`[k, m]` and equals `m` exactly when the real root is above the midpoint `m - 2 ^ (-t)`
between `m` and the double just below it, that is when `(m * 2 ^ t - 1) ^ 2 < d * 4 ^ t`.
Doubles just below `m` are `2 ^ (e - 52)` apart for `2 ^ e < m < 2 ^ (e + 1)` and
`2 ^ (e - 53)` apart for `m = 2 ^ e`, which gives `t`. -/
def truncSqrt (d : Nat) : Nat :=
  let k := Nat.sqrt d
  if k * k = d then k
  else
    let m := k + 1
    let e := Nat.log 2 m
    let t := if m = 2 ^ e then 54 - e else 53 - e
    if (m * 2 ^ t - 1) ^ 2 < d * 4 ^ t then m else k

/-- The initialisation `uint64_t n = std::sqrt(size_4)`: conversion to `double`, square root,
truncation. -/
def sqrt_uint64_t (size_4 : Nat) : Nat :=
  truncSqrt (toDouble size_4)

/-- The function `CalculateSize`; the pair of `uint64_t` is converted to a pair of
`int32_t` on return. -/
def CalculateSize (size : Nat) : Option (Int × Int) :=
  let size_4 := ((size + 3) % 2 ^ 64) / 4
  let n := sqrt_uint64_t size_4
  match DivCeil size_4 ((n * 4) % 2 ^ 64) with
  | none => none
  | some q =>
    let w := (q * 4) % 2 ^ 64
    match DivCeil size_4 w with
    | none => none
    | some h => some (toInt32 w, toInt32 h)

/-! ## The encode and decode pipelines -/

/-- The function `SaveEncodedFile`. -/
def SaveEncodedFile (fs : FileSystem) (path : String) (size compressed : Nat)
    (data : List Byte) : FileSystem × Except Error Unit :=
  match OpenFileWrite fs path with
  | .error e => (fs, .error e)
  | .ok file =>
    let n := (data.length + 2 * 8) % 2 ^ 64
    match CalculateSize n with
    | none => (file, .error .undefined)
    | some (w, h) =>
      let header := BMPHeader.new w h 4
      let file := Write file path header.bytes
      let file := Write file path (leBytes 8 size)
      let file := Write file path (leBytes 8 compressed)
      let file := WriteArray file path data
      let pad_n := (header.pixels_size + (2 ^ 64 - n)) % 2 ^ 64
      let padding := List.replicate pad_n (byte 0)
      (WriteArray file path padding, .ok ())

/-- The function `EncodeFile`. -/
def EncodeFile (zstd : Zstd) (fs : FileSystem) (input_path output_path : String)
    (compress : Bool) : FileSystem × Except Error Unit :=
  match ReadEntireFile fs input_path with
  | .error e => (fs, .error e)
  | .ok data =>
    let n := data.length
    if compress then
      match Compress zstd data with
      | .error e => (fs, .error e)
      | .ok compressed =>
        let c := compressed.length
        SaveEncodedFile fs output_path n c compressed
    else SaveEncodedFile fs output_path n 0 data

/-- The function `LoadEncodedFile`. -/
def LoadEncodedFile (zstd : Zstd) (fs : FileSystem) (path : String) :
    Except Error (List Byte) :=
  match OpenFileRead fs path with
  | .error e => .error e
  | .ok file =>
    match Read_BMPHeader file with
    | .error e => .error e
    | .ok (_, file) =>
      match Read_uint64_t file with
      | .error e => .error e
      | .ok (size, file) =>
        match Read_uint64_t file with
        | .error e => .error e
        | .ok (compressed, file) =>
          if compressed ≠ 0 then
            match ReadArray file compressed with
            | .error e => .error e
            | .ok (data, _) => Decompress zstd data size
          else
            match ReadArray file size with
            | .error e => .error e
            | .ok (data, _) => .ok data

/-- The function `DecodeFile`. When loading ends in undefined behaviour the file system is
returned as it was, for want of anything better; nothing is proved from that case. -/
def DecodeFile (zstd : Zstd) (fs : FileSystem) (input_path output_path : String) :
    FileSystem × Except Error Unit :=
  match LoadEncodedFile zstd fs input_path with
  | .error e => (fs, .error e)
  | .ok data =>
    match OpenFileWrite fs output_path with
    | .error e => (fs, .error e)
    | .ok file => (WriteArray file output_path data, .ok ())

/-! ## Concrete inputs -/

/-- The ten bytes of the text `0123456789`. -/
def digits : List Byte :=
  (List.range 10).map (fun i => byte (48 + i))

/-- A file system with one readable file, every path writable. -/
def singleFile (path : String) (bytes : List Byte) : FileSystem where
  content := fun p => if p = path then some bytes else none
  writable := fun _ => true

/-- A file system holding that text under `digits.txt`. -/
def digitsFS : FileSystem :=
  singleFile "digits.txt" digits

/-- The 86 bytes of the image of `digits`: header, framing, payload, six bytes of padding. -/
def digitsImage : List Byte :=
  [66, 77, 86, 0, 0, 0, 0, 0, 0, 0, 54, 0, 0, 0, 40, 0, 0, 0, 4, 0, 0, 0, 2, 0, 0, 0, 1, 0,
    32, 0, 0, 0, 0, 0, 32, 0, 0, 0, 19, 11, 0, 0, 19, 11, 0, 0, 0, 0, 0, 0, 0, 0, 0, 0,
    10, 0, 0, 0, 0, 0, 0, 0, 0, 0, 0, 0, 0, 0, 0, 0,
    48, 49, 50, 51, 52, 53, 54, 55, 56, 57, 0, 0, 0, 0, 0, 0].map byte

/-- A codec that stores its input behind one marker byte. -/
def storeZstd : Zstd where
  compressBound := fun n => n + 1
  compress := fun dstCapacity src =>
    if src.length + 1 ≤ dstCapacity then .ok (byte 1 :: src)
    else .error "Destination buffer is too small"
  decompress := fun dstCapacity src =>
    match src with
    | [] => .error "Src size is incorrect"
    | _ :: body =>
      if body.length ≤ dstCapacity then .ok body else .error "Destination buffer is too small"

/-- A degenerate codec: compression produces no bytes at all and decompression yields one
fixed byte. -/
def emptyZstd : Zstd where
  compressBound := fun n => n
  compress := fun _ _ => .ok []
  decompress := fun _ _ => .ok [byte 7]

/-- A file system holding the single byte `7` under `seven`. -/
def sevenFS : FileSystem :=
  singleFile "seven" [byte 7]

/-- The image of `digits` with its 54 header bytes overwritten by `255`. -/
def defacedImage : List Byte :=
  List.replicate 54 (byte 255) ++ digitsImage.drop 54

/-- A file system holding an empty file under `empty`. -/
def emptyFS : FileSystem :=
  singleFile "empty" []

/-- A codec whose every call reports an error. -/
def failingZstd : Zstd where
  compressBound := fun n => n
  compress := fun _ _ => .error "Allocation error : not enough memory"
  decompress := fun _ _ => .error "Unknown frame descriptor"

/-- A file system holding `digits` under `digits.txt` in which no path can be opened for
writing. -/
def readOnlyFS : FileSystem where
  content := fun p => if p = "digits.txt" then some digits else none
  writable := fun _ => false

/-! ## The sizing algorithm in the words of the specification -/

/-- The ceiling of the quotient `a / b`, taken in the rationals. -/
def ceilDiv (a b : Nat) : Nat :=
  Nat.ceil ((a : ℚ) / (b : ℚ))

/-- The canvas the specification prescribes for `n` bytes:
`pixels_needed = ceil(n / 4)`, `side = floor(sqrt(pixels_needed))`,
`w = ceil(pixels_needed / (side * 4)) * 4` and `h = ceil(pixels_needed / w)`. -/
def specCalculateSize (n : Nat) : Nat × Nat :=
  let pixels_needed := ceilDiv n 4
  let side := Nat.sqrt pixels_needed
  let w := ceilDiv pixels_needed (side * 4) * 4
  let h := ceilDiv pixels_needed w
  (w, h)

/-! ## Little-endian fields -/

theorem length_leBytes (w v : Nat) : (leBytes w v).length = w := by
  induction w generalizing v with
  | zero => rfl
  | succ w ih => simp [leBytes, ih]

theorem leValue_leBytes (w v : Nat) : leValue (leBytes w v) = v % 256 ^ w := by
  induction w generalizing v with
  | zero => simp [leBytes, leValue, Nat.mod_one]
  | succ w ih =>
    simp only [leBytes, leValue, ih, byte]
    rw [pow_succ, Nat.mul_comm (256 ^ w) 256, Nat.mod_mul]

theorem length_bytes (h : BMPHeader) : h.bytes.length = 54 := by
  simp [BMPHeader.bytes, length_leBytes]

/-! ## The square root -/

theorem toDouble_of_lt (x : Nat) (h : x < 2 ^ 53) : toDouble x = x := by
  unfold toDouble
  rw [if_pos h]

theorem sq_pred_ge (x m T : Nat) (hx : x + 1 ≤ m * m) (hT : 2 * m ≤ T) :
    ¬ ((m * T - 1) ^ 2 < x * (T * T)) := by
  have hmT : 1 ≤ m * T := by nlinarith
  obtain ⟨y, hy⟩ : ∃ y, m * T = y + 1 := ⟨m * T - 1, by omega⟩
  have hpred : m * T - 1 = y := by omega
  rw [hpred]
  intro hlt
  have h1 : (x + 1) * (T * T) ≤ (m * m) * (T * T) := Nat.mul_le_mul_right _ hx
  have h2 : (m * m) * (T * T) = (y + 1) * (y + 1) := by rw [← hy]; ring
  have h3 : 2 * (y + 1) ≤ T * T := by
    rw [← hy]
    calc 2 * (m * T) = (2 * m) * T := by ring
      _ ≤ T * T := Nat.mul_le_mul_right _ hT
  nlinarith

/-- Below `2 ^ 52` the double-precision root never rounds up to the next integer. -/
theorem truncSqrt_of_lt (x : Nat) (h : x < 2 ^ 52) : truncSqrt x = Nat.sqrt x := by
  unfold truncSqrt
  simp only
  by_cases h1 : Nat.sqrt x * Nat.sqrt x = x
  · rw [if_pos h1]
  · rw [if_neg h1]
    have hk2 : x < (Nat.sqrt x + 1) * (Nat.sqrt x + 1) := Nat.lt_succ_sqrt x
    generalize hm : Nat.sqrt x + 1 = m at hk2 ⊢
    have hm26 : m ≤ 2 ^ 26 := by
      by_contra hc
      have h26 : 2 ^ 26 ≤ Nat.sqrt x := by omega
      have hsq : 2 ^ 26 * 2 ^ 26 ≤ Nat.sqrt x * Nat.sqrt x := Nat.mul_le_mul h26 h26
      have hk : Nat.sqrt x * Nat.sqrt x ≤ x := Nat.sqrt_le x
      norm_num at hsq h
      omega
    have hm0 : m ≠ 0 := by omega
    have he1 : 2 ^ Nat.log 2 m ≤ m := Nat.pow_log_le_self 2 hm0
    have he2 : m < 2 ^ (Nat.log 2 m + 1) := Nat.lt_pow_succ_log_self (by norm_num) m
    generalize Nat.log 2 m = e at he1 he2 ⊢
    have he26 : e ≤ 26 := by
      by_contra hc
      have : 2 ^ 27 ≤ 2 ^ e := Nat.pow_le_pow_right (by norm_num) (by omega)
      omega
    have hT : 2 * m ≤ 2 ^ (if m = 2 ^ e then 54 - e else 53 - e) := by
      split_ifs with hme
      · calc 2 * m = 2 ^ (e + 1) := by rw [pow_succ, ← hme]; ring
          _ ≤ 2 ^ (54 - e) := Nat.pow_le_pow_right (by norm_num) (by omega)
      · have he25 : e ≤ 25 := by
          by_contra hc
          have he26 : e = 26 := by omega
          rw [he26] at he1 hme
          omega
        calc 2 * m ≤ 2 * 2 ^ (e + 1) := by omega
          _ = 2 ^ (e + 2) := by ring
          _ ≤ 2 ^ (53 - e) := Nat.pow_le_pow_right (by norm_num) (by omega)
    generalize (if m = 2 ^ e then 54 - e else 53 - e) = t at hT ⊢
    have h4 : (4 : Nat) ^ t = 2 ^ t * 2 ^ t := by
      rw [← mul_pow]
      norm_num
    rw [h4, if_neg (sq_pred_ge x m _ (by omega) hT)]

/-- On arguments below `2 ^ 52` the seed is the integer square root. -/
theorem sqrt_uint64_t_of_lt (x : Nat) (h : x < 2 ^ 52) : sqrt_uint64_t x = Nat.sqrt x := by
  unfold sqrt_uint64_t
  rw [toDouble_of_lt x (by omega), truncSqrt_of_lt x h]

theorem sqrt_eq_of_sq (n k : Nat) (h1 : k * k ≤ n) (h2 : n < (k + 1) * (k + 1)) :
    Nat.sqrt n = k :=
  (Nat.eq_sqrt.mpr ⟨h1, h2⟩).symm

theorem sqrt_le_truncSqrt (d : Nat) : Nat.sqrt d ≤ truncSqrt d := by
  unfold truncSqrt
  simp only
  split_ifs <;> omega

theorem truncSqrt_le (d : Nat) : truncSqrt d ≤ Nat.sqrt d + 1 := by
  unfold truncSqrt
  simp only
  split_ifs <;> omega

/-- Rounding to `double` moves a value by at most one part in `2 ^ 52`. -/
theorem toDouble_bounds (x : Nat) :
    ∃ u, u * 2 ^ 52 ≤ x ∧ x ≤ toDouble x + u ∧ toDouble x ≤ x + u := by
  by_cases hx : x < 2 ^ 53
  · have h0 : toDouble x = x := toDouble_of_lt x hx
    exact ⟨0, by omega, by omega, by omega⟩
  · unfold toDouble
    simp only [if_neg hx]
    have hx0 : x ≠ 0 := by
      rintro rfl
      simp at hx
    have hL : 2 ^ Nat.log 2 x ≤ x := Nat.pow_log_le_self 2 hx0
    have hL2 : x < 2 ^ (Nat.log 2 x + 1) := Nat.lt_pow_succ_log_self (by norm_num) x
    have h53 : 53 ≤ Nat.log 2 x := by
      by_contra hc
      have : 2 ^ (Nat.log 2 x + 1) ≤ 2 ^ 53 := Nat.pow_le_pow_right (by norm_num) (by omega)
      omega
    generalize Nat.log 2 x = L at hL hL2 h53 ⊢
    have hu : 2 ^ (L - 52) * 2 ^ 52 = 2 ^ L := by
      rw [← pow_add]
      congr 1
      omega
    have hdm : 2 ^ (L - 52) * (x / 2 ^ (L - 52)) + x % 2 ^ (L - 52) = x := Nat.div_add_mod x _
    have hr : x % 2 ^ (L - 52) < 2 ^ (L - 52) := Nat.mod_lt _ (by positivity)
    generalize 2 ^ (L - 52) = u at hu hdm hr ⊢
    generalize x / u = q at hdm ⊢
    generalize x % u = r at hdm hr ⊢
    refine ⟨u, by omega, ?_, ?_⟩ <;> split_ifs <;> nlinarith

/-- The seed on every size the program can meet: it is positive, far below `2 ^ 31`, and
its successor squared exceeds the argument up to the rounding of the conversion. -/
theorem sqrt_uint64_t_bounds (p : Nat) (h1 : 1 ≤ p) (h2 : p < 2 ^ 61 + 8) :
    1 ≤ sqrt_uint64_t p ∧ sqrt_uint64_t p ≤ 2 ^ 31 - 700 ∧
      p < (sqrt_uint64_t p + 1) * (sqrt_uint64_t p + 1) + 1024 := by
  obtain ⟨u, hu1, hu2, hu3⟩ := toDouble_bounds p
  unfold sqrt_uint64_t
  have hlo := sqrt_le_truncSqrt (toDouble p)
  have hhi := truncSqrt_le (toDouble p)
  generalize toDouble p = d at *
  have hd1 : 1 ≤ d := by omega
  have hs1 : 1 ≤ Nat.sqrt d := Nat.sqrt_pos.mpr hd1
  have hu : u < 1024 := by omega
  have hs2 : Nat.sqrt d < 2 ^ 31 - 701 := by
    rw [Nat.sqrt_lt']
    norm_num
    omega
  have hs3 : d < (Nat.sqrt d + 1) * (Nat.sqrt d + 1) := Nat.lt_succ_sqrt d
  generalize truncSqrt d = s at *
  refine ⟨by omega, by omega, ?_⟩
  have : (Nat.sqrt d + 1) * (Nat.sqrt d + 1) ≤ (s + 1) * (s + 1) :=
    Nat.mul_le_mul (by omega) (by omega)
  omega

/-! ## The sizing algorithm -/

theorem toInt32_of_lt (v : Nat) (h : v < 2 ^ 31) : toInt32 v = (v : Int) := by
  unfold toInt32
  have hv : v % 2 ^ 32 = v := Nat.mod_eq_of_lt (by omega)
  rw [hv, if_pos h]

/-- Ceiling division: the quotient computed by `DivCeil` is the least multiple count that
covers the dividend. -/
theorem divCeil_bounds (a b : Nat) (hb : 0 < b) :
    a ≤ (a + b - 1) / b * b ∧ (a + b - 1) / b * b < a + b := by
  obtain ⟨c, hc⟩ : ∃ c, a + b = c + 1 := ⟨a + b - 1, by omega⟩
  have hc2 : a + b - 1 = c := by omega
  rw [hc2]
  have h1 := Nat.div_add_mod c b
  have h2 := Nat.mod_lt c hb
  rw [Nat.mul_comm] at h1
  generalize c / b * b = m at h1 ⊢
  omega

/-- The value of `CalculateSize` on every size that the rest of the program can pass, with
the arithmetic facts about the canvas that hold regardless of how the square root rounds. -/
theorem CalculateSize_eq (n : Nat) (h1 : 1 ≤ n) (h2 : n ≤ 2 ^ 63 + 16) :
    ∃ w h : Nat, CalculateSize n = some ((w : Int), (h : Int)) ∧
      w = 4 * (((n + 3) / 4 + 4 * sqrt_uint64_t ((n + 3) / 4) - 1) /
        (4 * sqrt_uint64_t ((n + 3) / 4))) ∧
      h = ((n + 3) / 4 + w - 1) / w ∧
      4 ≤ w ∧ w < 2 ^ 31 ∧ 1 ≤ h ∧ h ≤ sqrt_uint64_t ((n + 3) / 4) ∧
      (n + 3) / 4 ≤ w * h ∧ w * h < (n + 3) / 4 + w := by
  have hp1 : 1 ≤ (n + 3) / 4 := by omega
  have hp2 : (n + 3) / 4 < 2 ^ 61 + 8 := by omega
  obtain ⟨hs1, hs2, hs3⟩ := sqrt_uint64_t_bounds _ hp1 hp2
  unfold CalculateSize
  simp only
  have e1 : (n + 3) % 2 ^ 64 = n + 3 := Nat.mod_eq_of_lt (by omega)
  rw [e1]
  generalize (n + 3) / 4 = p at *
  generalize sqrt_uint64_t p = s at *
  have e2 : s * 4 % 2 ^ 64 = 4 * s := by omega
  rw [e2]
  have e3 : (p + 4 * s + (2 ^ 64 - 1)) % 2 ^ 64 = p + 4 * s - 1 := by omega
  have hq := divCeil_bounds p (4 * s) (by omega)
  have hqlt : (p + 4 * s - 1) / (4 * s) < 2 ^ 29 := by
    rw [Nat.div_lt_iff_lt_mul (by omega)]
    obtain ⟨r, rfl⟩ : ∃ r, s = r + 1 := ⟨s - 1, by omega⟩
    obtain ⟨d, hd⟩ : ∃ d, r + d = 2147482947 := ⟨2147482947 - r, by omega⟩
    have hrd : 0 ≤ r * d := Nat.zero_le _
    have key : p + 4 * (r + 1) ≤ 2 ^ 29 * (4 * (r + 1)) := by nlinarith
    omega
  simp only [DivCeil, e3, show ¬ (4 * s = 0) by omega, if_false]
  generalize hqd : (p + 4 * s - 1) / (4 * s) = q at *
  have hq1 : 1 ≤ q := by
    by_contra hc
    have hq0 : q = 0 := by omega
    rw [hq0] at hq
    omega
  have e4 : q * 4 % 2 ^ 64 = 4 * q := by omega
  rw [e4]
  have e5 : (p + 4 * q + (2 ^ 64 - 1)) % 2 ^ 64 = p + 4 * q - 1 := by omega
  have hh := divCeil_bounds p (4 * q) (by omega)
  simp only [e5, show ¬ (4 * q = 0) by omega, if_false]
  have hhs : (p + 4 * q - 1) / (4 * q) ≤ s := by
    have hlt : (p + 4 * q - 1) / (4 * q) < s + 1 := by
      rw [Nat.div_lt_iff_lt_mul (by omega)]
      have key : p + 4 * q ≤ (s + 1) * (4 * q) := by nlinarith [hq.1]
      omega
    omega
  generalize hhd : (p + 4 * q - 1) / (4 * q) = h at *
  have hh1 : 1 ≤ h := by
    by_contra hc
    have hh0 : h = 0 := by omega
    rw [hh0] at hh
    omega
  refine ⟨4 * q, h, ?_, rfl, hhd.symm, by omega, by omega, hh1, hhs, ?_, ?_⟩
  · rw [toInt32_of_lt _ (by omega), toInt32_of_lt _ (by omega)]
  · rw [Nat.mul_comm (4 * q) h]
    exact hh.1
  · rw [Nat.mul_comm (4 * q) h]
    exact hh.2

theorem toU32_natCast (v : Nat) : toU32 (v : Int) = v % 2 ^ 32 := by
  unfold toU32
  have h : ((v : Int) % 2 ^ 32) = ((v % 2 ^ 32 : Nat) : Int) := by
    push_cast
    rfl
  rw [h, Int.toNat_natCast]

/-- The size fields of a header as integers modulo `2 ^ 32`. -/
theorem pixels_size_new (x y : Int) :
    ((BMPHeader.new x y 4).pixels_size : Int) = (4 * x * y) % 2 ^ 32 := by
  show (((4 * toU32 x) % 2 ^ 32 * toU32 y % 2 ^ 32 : Nat) : Int) = _
  unfold toU32
  have hx : (0 : Int) ≤ x % 2 ^ 32 := Int.emod_nonneg _ (by norm_num)
  have hy : (0 : Int) ≤ y % 2 ^ 32 := Int.emod_nonneg _ (by norm_num)
  rw [Int.natCast_mod, Nat.cast_mul, Int.natCast_mod, Nat.cast_mul, Int.toNat_of_nonneg hx,
    Int.toNat_of_nonneg hy]
  have hx2 : x % 2 ^ 32 ≡ x [ZMOD 2 ^ 32] := Int.mod_modEq x _
  have hy2 : y % 2 ^ 32 ≡ y [ZMOD 2 ^ 32] := Int.mod_modEq y _
  have h4x : (4 * (x % 2 ^ 32)) % 2 ^ 32 ≡ 4 * x [ZMOD 2 ^ 32] :=
    (Int.mod_modEq _ _).trans (Int.ModEq.mul_left 4 hx2)
  exact Int.ModEq.mul h4x hy2

theorem pixels_size_new_of_fits (w h : Nat) (hfit : 4 * (w * h) < 2 ^ 32) :
    (BMPHeader.new (w : Int) (h : Int) 4).pixels_size = 4 * (w * h) := by
  have h1 := pixels_size_new (w : Int) (h : Int)
  have h2 : (4 * (w : Int) * (h : Int)) % 2 ^ 32 = ((4 * (w * h) : Nat) : Int) := by
    rw [Int.emod_eq_of_lt]
    · push_cast
      ring
    · positivity
    · have : ((4 * (w * h) : Nat) : Int) < 2 ^ 32 := by exact_mod_cast hfit
      push_cast at this
      linarith
  rw [h2] at h1
  exact_mod_cast h1

theorem size_new (x y : Int) :
    (BMPHeader.new x y 4).size = ((BMPHeader.new x y 4).pixels_size + 54) % 2 ^ 32 := rfl

/-- Within the 32-bit range the seed is the integer square root, the width exceeds it by at
most five and the canvas with its header stays below `2 ^ 32` bytes. -/
theorem CalculateSize_fits (n : Nat) (h1 : 1 ≤ n) (h2 : n ≤ 4000000000) :
    ∃ w h : Nat, CalculateSize n = some ((w : Int), (h : Int)) ∧
      4 ≤ w ∧ w % 4 = 0 ∧ w ≤ Nat.sqrt ((n + 3) / 4) + 5 ∧ 1 ≤ h ∧ h ≤ Nat.sqrt ((n + 3) / 4) ∧
      n ≤ 4 * (w * h) ∧ 4 * (w * h) < n + 4 * w + 3 ∧ 4 * (w * h) + 54 < 2 ^ 32 := by
  obtain ⟨w, h, hc, hwd, -, hw4, hw31, hh1, hhs, hcov, hmin⟩ :=
    CalculateSize_eq n h1 (by omega)
  have hsq : sqrt_uint64_t ((n + 3) / 4) = Nat.sqrt ((n + 3) / 4) :=
    sqrt_uint64_t_of_lt _ (by omega)
  rw [hsq] at hwd hhs
  have hp : (n + 3) / 4 ≤ 1000000000 := by omega
  have hpn : n ≤ 4 * ((n + 3) / 4) ∧ 4 * ((n + 3) / 4) ≤ n + 3 := by omega
  have hs1 : Nat.sqrt ((n + 3) / 4) * Nat.sqrt ((n + 3) / 4) ≤ (n + 3) / 4 := Nat.sqrt_le _
  have hs2 : (n + 3) / 4 < (Nat.sqrt ((n + 3) / 4) + 1) * (Nat.sqrt ((n + 3) / 4) + 1) :=
    Nat.lt_succ_sqrt _
  have hs0 : 1 ≤ Nat.sqrt ((n + 3) / 4) := Nat.sqrt_pos.mpr (by omega)
  generalize (n + 3) / 4 = p at *
  generalize Nat.sqrt p = s at *
  have hs3 : s ≤ 31622 := by
    by_contra hcon
    have : 31623 * 31623 ≤ s * s := Nat.mul_le_mul (by omega) (by omega)
    omega
  have hq := Nat.div_mul_le_self (p + 4 * s - 1) (4 * s)
  generalize (p + 4 * s - 1) / (4 * s) = q at *
  have hws : w ≤ s + 5 := by
    have e1 : (s + 1) * (s + 1) = s * s + 2 * s + 1 := by ring
    have e2 : (s + 6) * s = s * s + 6 * s := by ring
    have e3 : q * (4 * s) = 4 * q * s := by ring
    have hlt : 4 * q * s < (s + 6) * s := by omega
    have : 4 * q < s + 6 := Nat.lt_of_mul_lt_mul_right hlt
    omega
  refine ⟨w, h, hc, hw4, by omega, hws, hh1, hhs, by omega, by omega, ?_⟩
  have : 4 * (w * h) < n + 4 * w + 3 := by omega
  omega

/-! ## Streams and the two pipelines -/

theorem Read_append (a b : List Byte) (n : Nat) (h : a.length = n) :
    Read (a ++ b) n = .ok (a, b) := by
  subst h
  simp [Read]

theorem Read_uint64_t_append (v : Nat) (b : List Byte) :
    Read_uint64_t (leBytes 8 v ++ b) = .ok (v % 2 ^ 64, b) := by
  unfold Read_uint64_t
  rw [Read_append _ _ 8 (length_leBytes 8 v)]
  simp only [leValue_leBytes]
  norm_num

/-- What `LoadEncodedFile` makes of a stream: the header is skipped unread, the two framing
fields decide how the rest is read. -/
theorem LoadEncodedFile_stream (zstd : Zstd) (fs : FileSystem) (path : String)
    (hdr rest : List Byte) (size compressed : Nat) (hh : hdr.length = 54)
    (hs : size < 2 ^ 64) (hc : compressed < 2 ^ 64)
    (hfile : fs.content path = some (hdr ++ (leBytes 8 size ++ (leBytes 8 compressed ++ rest)))) :
    LoadEncodedFile zstd fs path =
      if compressed ≠ 0 then
        (if compressed ≤ rest.length then Decompress zstd (rest.take compressed) size
         else .error .undefined)
      else (if size ≤ rest.length then .ok (rest.take size) else .error .undefined) := by
  unfold LoadEncodedFile OpenFileRead Read_BMPHeader
  rw [hfile]
  simp only
  rw [Read_append _ _ BMPHeader.sizeof hh]
  simp only [Read_uint64_t_append, Nat.mod_eq_of_lt hs, Nat.mod_eq_of_lt hc]
  unfold ReadArray Read
  split_ifs <;> rfl

theorem content_Write (fs : FileSystem) (path : String) (bytes : List Byte) :
    (Write fs path bytes).content path = (fs.content path).map (fun l => l ++ bytes) := by
  unfold Write
  simp only [if_true]

/-- The file system `SaveEncodedFile` leaves when the destination opens and the canvas is
computed: the five writes in order. -/
theorem SaveEncodedFile_eq (fs : FileSystem) (path : String) (size compressed : Nat)
    (data : List Byte) (w h : Int) (hw : fs.writable path = true)
    (hc : CalculateSize ((data.length + 2 * 8) % 2 ^ 64) = some (w, h)) :
    SaveEncodedFile fs path size compressed data =
      (WriteArray (WriteArray (Write (Write (Write
        { fs with content := fun p => if p = path then some [] else fs.content p }
        path (BMPHeader.new w h 4).bytes) path (leBytes 8 size)) path (leBytes 8 compressed))
        path data) path (List.replicate (((BMPHeader.new w h 4).pixels_size +
          (2 ^ 64 - (data.length + 2 * 8) % 2 ^ 64)) % 2 ^ 64) (byte 0)), .ok ()) := by
  unfold SaveEncodedFile OpenFileWrite
  rw [if_pos hw]
  simp only [hc]

theorem content_five_writes (fs : FileSystem) (path : String) (a b c d e : List Byte) :
    (WriteArray (WriteArray (Write (Write (Write
        { fs with content := fun p => if p = path then some [] else fs.content p }
        path a) path b) path c) path d) path e).content path =
      some (a ++ (b ++ (c ++ (d ++ e)))) := by
  simp only [WriteArray, content_Write, if_true, Option.map_some', List.nil_append,
    List.append_assoc]

/-- The bytes `SaveEncodedFile` writes, for a payload that fits in memory. -/
theorem SaveEncodedFile_content (fs : FileSystem) (path : String) (size compressed : Nat)
    (data : List Byte) (hw : fs.writable path = true) (hlen : data.length < 2 ^ 63) :
    ∃ w h : Nat, CalculateSize (data.length + 16) = some ((w : Int), (h : Int)) ∧
      4 ≤ w ∧ w < 2 ^ 31 ∧ 1 ≤ h ∧ h < 2 ^ 31 ∧ data.length + 16 ≤ 4 * (w * h) ∧
      4 * (w * h) < data.length + 16 + 4 * w + 3 ∧
      (SaveEncodedFile fs path size compressed data).2 = .ok () ∧
      (SaveEncodedFile fs path size compressed data).1.content path =
        some ((BMPHeader.new w h 4).bytes ++ (leBytes 8 size ++ (leBytes 8 compressed ++
          (data ++ List.replicate (((BMPHeader.new w h 4).pixels_size +
            (2 ^ 64 - (data.length + 16))) % 2 ^ 64) (byte 0))))) := by
  obtain ⟨w, h, hc, -, -, hw4, hw31, hh1, hhs, hcov, hmin⟩ :=
    CalculateSize_eq (data.length + 16) (by omega) (by omega)
  have hs := (sqrt_uint64_t_bounds ((data.length + 16 + 3) / 4) (by omega) (by omega)).2.1
  have hn : (data.length + 2 * 8) % 2 ^ 64 = data.length + 16 := by omega
  have hc2 : CalculateSize ((data.length + 2 * 8) % 2 ^ 64) = some ((w : Int), (h : Int)) := by
    rw [hn]
    exact hc
  refine ⟨w, h, hc, hw4, hw31, hh1, by omega, by omega, by omega, ?_, ?_⟩
  · rw [SaveEncodedFile_eq fs path size compressed data w h hw hc2]
  · rw [SaveEncodedFile_eq fs path size compressed data w h hw hc2, content_five_writes, hn]

theorem ReadEntireFile_eq (fs : FileSystem) (path : String) (B : List Byte)
    (hin : fs.content path = some B) (hlen : B.length < 2 ^ 64) :
    ReadEntireFile fs path = .ok B := by
  unfold ReadEntireFile OpenFileRead ReadArray Read
  rw [hin]
  simp only
  rw [Nat.mod_eq_of_lt hlen, if_pos (Nat.le_refl _), List.take_length]

theorem EncodeFile_raw (zstd : Zstd) (fs : FileSystem) (input_path output_path : String)
    (B : List Byte) (hin : fs.content input_path = some B) (hlen : B.length < 2 ^ 64) :
    EncodeFile zstd fs input_path output_path false =
      SaveEncodedFile fs output_path B.length 0 B := by
  unfold EncodeFile
  rw [ReadEntireFile_eq fs input_path B hin hlen]
  rfl

theorem EncodeFile_compressed (zstd : Zstd) (fs : FileSystem) (input_path output_path : String)
    (B c : List Byte) (hin : fs.content input_path = some B) (hlen : B.length < 2 ^ 64)
    (hcomp : zstd.compress (zstd.compressBound B.length) B = .ok c) :
    EncodeFile zstd fs input_path output_path true =
      SaveEncodedFile fs output_path B.length c.length c := by
  unfold EncodeFile Compress
  rw [ReadEntireFile_eq fs input_path B hin hlen]
  simp only [hcomp, if_true]

theorem roundtrip_raw (zstd : Zstd) (fs : FileSystem) (input_path output_path : String)
    (B : List Byte) (hlen : B.length < 2 ^ 63)
    (hin : fs.content input_path = some B) (hout : fs.writable output_path = true) :
    (EncodeFile zstd fs input_path output_path false).2 = .ok () ∧
    LoadEncodedFile zstd (EncodeFile zstd fs input_path output_path false).1 output_path =
      .ok B := by
  rw [EncodeFile_raw zstd fs input_path output_path B hin (by omega)]
  obtain ⟨w, h, -, -, -, -, -, -, -, hok, hcontent⟩ :=
    SaveEncodedFile_content fs output_path B.length 0 B hout hlen
  refine ⟨hok, ?_⟩
  rw [LoadEncodedFile_stream zstd _ output_path _ _ B.length 0 (length_bytes _) (by omega)
    (by norm_num) hcontent]
  simp


/-! ## Evaluating the sizing algorithm -/

theorem CalculateSize_of_seed (n s : Nat) (hn : n + 3 < 2 ^ 54)
    (h1 : s * s ≤ (n + 3) / 4) (h2 : (n + 3) / 4 < (s + 1) * (s + 1)) :
    CalculateSize n =
      match DivCeil ((n + 3) / 4) ((s * 4) % 2 ^ 64) with
      | none => none
      | some q =>
        match DivCeil ((n + 3) / 4) ((q * 4) % 2 ^ 64) with
        | none => none
        | some h => some (toInt32 ((q * 4) % 2 ^ 64), toInt32 h) := by
  unfold CalculateSize
  simp only
  rw [Nat.mod_eq_of_lt (show n + 3 < 2 ^ 64 by omega),
    sqrt_uint64_t_of_lt _ (show (n + 3) / 4 < 2 ^ 52 by omega), sqrt_eq_of_sq _ s h1 h2]

theorem log_eq_of (n k : Nat) (h1 : 2 ^ k ≤ n) (h2 : n < 2 ^ (k + 1)) : Nat.log 2 n = k := by
  apply Nat.log_eq_of_pow_le_of_lt_pow h1 h2

theorem toDouble_wrap : toDouble 4611686009837453312 = 4611686009837453312 := by
  unfold toDouble
  rw [if_neg (by norm_num), log_eq_of 4611686009837453312 61 (by norm_num) (by norm_num)]
  decide

theorem truncSqrt_wrap : truncSqrt 4611686009837453312 = 2147483646 := by
  unfold truncSqrt
  rw [sqrt_eq_of_sq 4611686009837453312 2147483645 (by norm_num) (by norm_num)]
  simp only
  rw [log_eq_of (2147483645 + 1) 30 (by norm_num) (by norm_num)]
  decide

/-- Evaluation of `CalculateSize` from a known value of the seed. -/
theorem CalculateSize_of_sqrt (n s : Nat) (hs : sqrt_uint64_t (((n + 3) % 2 ^ 64) / 4) = s) :
    CalculateSize n =
      match DivCeil (((n + 3) % 2 ^ 64) / 4) ((s * 4) % 2 ^ 64) with
      | none => none
      | some q =>
        match DivCeil (((n + 3) % 2 ^ 64) / 4) ((q * 4) % 2 ^ 64) with
        | none => none
        | some h => some (toInt32 ((q * 4) % 2 ^ 64), toInt32 h) := by
  unfold CalculateSize
  simp only
  rw [hs]

theorem sqrt_uint64_t_wrap : sqrt_uint64_t (((2 ^ 64 - 2 ^ 35 + 3) % 2 ^ 64) / 4) = 2147483646 := by
  have e : ((2 ^ 64 - 2 ^ 35 + 3) % 2 ^ 64) / 4 = 4611686009837453312 := by norm_num
  rw [e]
  unfold sqrt_uint64_t
  rw [toDouble_wrap, truncSqrt_wrap]

/-! ## Fields of the written stream -/

theorem fieldAt_append_left (a b : List Byte) (off w : Nat) (h : off + w ≤ a.length) :
    fieldAt (a ++ b) off w = fieldAt a off w := by
  unfold fieldAt
  rw [List.drop_append_of_le_length (by omega), List.take_append_of_le_length]
  rw [List.length_drop]
  omega

theorem fieldAt_skip (k v : Nat) (s : List Byte) (off w : Nat) (h : k ≤ off) :
    fieldAt (leBytes k v ++ s) off w = fieldAt s (off - k) w := by
  unfold fieldAt
  congr 1
  have hk : (leBytes k v).length = k := length_leBytes k v
  rw [List.drop_append_eq_append_drop, List.drop_of_length_le (by omega), hk, List.nil_append]

theorem fieldAt_head (w v : Nat) (s : List Byte) :
    fieldAt (leBytes w v ++ s) 0 w = v % 256 ^ w := by
  unfold fieldAt
  rw [List.drop_zero, List.take_left' (length_leBytes w v), leValue_leBytes]

theorem fieldAt_first (w v : Nat) : fieldAt (leBytes w v) 0 w = v % 256 ^ w := by
  unfold fieldAt
  rw [List.drop_zero, List.take_of_length_le (by rw [length_leBytes]), leValue_leBytes]

/-- The sixteen fields of the object representation of a header, at their offsets. -/
theorem fieldAt_bytes (hd : BMPHeader) :
    fieldAt hd.bytes 0 2 = hd.id % 2 ^ 16 ∧ fieldAt hd.bytes 2 4 = hd.size % 2 ^ 32 ∧
    fieldAt hd.bytes 6 2 = hd.reserved0 % 2 ^ 16 ∧
    fieldAt hd.bytes 8 2 = hd.reserved1 % 2 ^ 16 ∧
    fieldAt hd.bytes 10 4 = hd.offset % 2 ^ 32 ∧
    fieldAt hd.bytes 14 4 = hd.bitmapinfoheader_size % 2 ^ 32 ∧
    fieldAt hd.bytes 18 4 = toU32 hd.x % 2 ^ 32 ∧ fieldAt hd.bytes 22 4 = toU32 hd.y % 2 ^ 32 ∧
    fieldAt hd.bytes 26 2 = hd.planes % 2 ^ 16 ∧ fieldAt hd.bytes 28 2 = hd.depth % 2 ^ 16 ∧
    fieldAt hd.bytes 30 4 = hd.compression % 2 ^ 32 ∧
    fieldAt hd.bytes 34 4 = hd.pixels_size % 2 ^ 32 ∧
    fieldAt hd.bytes 38 4 = toU32 hd.horizontal_res % 2 ^ 32 ∧
    fieldAt hd.bytes 42 4 = toU32 hd.vertical_res % 2 ^ 32 ∧
    fieldAt hd.bytes 46 4 = hd.palette % 2 ^ 32 ∧
    fieldAt hd.bytes 50 4 = hd.important % 2 ^ 32 := by
  unfold BMPHeader.bytes
  simp only [List.append_assoc]
  norm_num [fieldAt_skip, fieldAt_head, fieldAt_first]

theorem fieldAt_framing (hdr rest : List Byte) (a b : Nat) (hh : hdr.length = 54) :
    fieldAt (hdr ++ (leBytes 8 a ++ (leBytes 8 b ++ rest))) 54 8 = a % 2 ^ 64 ∧
    fieldAt (hdr ++ (leBytes 8 a ++ (leBytes 8 b ++ rest))) 62 8 = b % 2 ^ 64 ∧
    (hdr ++ (leBytes 8 a ++ (leBytes 8 b ++ rest))).drop 70 = rest := by
  have h8 : ∀ v, (leBytes 8 v).length = 8 := length_leBytes 8
  have e64 : 256 ^ 8 = 2 ^ 64 := by norm_num
  refine ⟨?_, ?_, ?_⟩
  · unfold fieldAt
    rw [List.drop_left' hh, List.take_left' (h8 a), leValue_leBytes, e64]
  · unfold fieldAt
    have hd : (hdr ++ (leBytes 8 a ++ (leBytes 8 b ++ rest))) =
        (hdr ++ leBytes 8 a) ++ (leBytes 8 b ++ rest) := by simp
    have hl : (hdr ++ leBytes 8 a).length = 62 := by simp [hh, h8]
    rw [hd, List.drop_left' hl, List.take_left' (h8 b), leValue_leBytes, e64]
  · have hd : (hdr ++ (leBytes 8 a ++ (leBytes 8 b ++ rest))) =
        (hdr ++ leBytes 8 a ++ leBytes 8 b) ++ rest := by simp
    have hl : (hdr ++ leBytes 8 a ++ leBytes 8 b).length = 70 := by simp [hh, h8]
    rw [hd, List.drop_left' hl]


theorem Decompress_ok (zstd : Zstd) (array result : List Byte) (size : Nat)
    (h : zstd.decompress size array = .ok result) (hl : result.length = size) :
    Decompress zstd array size = .ok result := by
  unfold Decompress
  rw [h]
  simp only
  rw [if_neg (by simpa using hl)]


/-- The call of `SaveEncodedFile` that `EncodeFile` makes, for either value of the flag. -/
theorem EncodeFile_eq_save (zstd : Zstd) (fs : FileSystem) (input_path output_path : String)
    (compress : Bool) (B payload : List Byte) (hin : fs.content input_path = some B)
    (hlen : B.length < 2 ^ 64)
    (hpay : (compress = false ∧ payload = B) ∨
      (compress = true ∧ zstd.compress (zstd.compressBound B.length) B = .ok payload)) :
    EncodeFile zstd fs input_path output_path compress =
      SaveEncodedFile fs output_path B.length (if compress then payload.length else 0)
        payload := by
  rcases hpay with ⟨hc, hp⟩ | ⟨hc, hp⟩
  · subst hc hp
    exact EncodeFile_raw zstd fs input_path output_path payload hin hlen
  · subst hc
    exact EncodeFile_compressed zstd fs input_path output_path B payload hin hlen hp

theorem toU32_of_lt (v : Nat) (h : v < 2 ^ 32) : toU32 (v : Int) = v := by
  rw [toU32_natCast, Nat.mod_eq_of_lt h]

/-- The writes of `SaveEncodedFile` change no permission. -/
theorem SaveEncodedFile_writable (fs : FileSystem) (path : String) (size compressed : Nat)
    (data : List Byte) (hw : fs.writable path = true) (hlen : data.length < 2 ^ 63) :
    (SaveEncodedFile fs path size compressed data).1.writable = fs.writable := by
  obtain ⟨w, h, hc, -⟩ := CalculateSize_eq (data.length + 16) (by omega) (by omega)
  have hn : (data.length + 2 * 8) % 2 ^ 64 = data.length + 16 := by omega
  have hc2 : CalculateSize ((data.length + 2 * 8) % 2 ^ 64) = some ((w : Int), (h : Int)) := by
    rw [hn]
    exact hc
  rw [SaveEncodedFile_eq fs path size compressed data w h hw hc2]
  rfl

/-- The success path of `DecodeFile`: the destination is opened, which truncates it, and the
loaded bytes are written to it. -/
theorem DecodeFile_of_load_ok (zstd : Zstd) (fs : FileSystem)
    (input_path output_path : String) (data : List Byte)
    (h : LoadEncodedFile zstd fs input_path = .ok data)
    (hw : fs.writable output_path = true) :
    DecodeFile zstd fs input_path output_path =
      (WriteArray { fs with content := fun p => if p = output_path then some [] else fs.content p }
        output_path data, .ok ()) := by
  unfold DecodeFile OpenFileWrite
  rw [h, if_pos hw]

/-- What `DecodeFile` leaves on its success path: the destination holds exactly the loaded
bytes and every other file is untouched. -/
theorem DecodeFile_content (zstd : Zstd) (fs : FileSystem)
    (input_path output_path : String) (data : List Byte)
    (h : LoadEncodedFile zstd fs input_path = .ok data)
    (hw : fs.writable output_path = true) :
    (DecodeFile zstd fs input_path output_path).2 = .ok () ∧
    (DecodeFile zstd fs input_path output_path).1.content output_path = some data ∧
    ∀ p, p ≠ output_path →
      (DecodeFile zstd fs input_path output_path).1.content p = fs.content p := by
  rw [DecodeFile_of_load_ok zstd fs input_path output_path data h hw]
  refine ⟨rfl, ?_, ?_⟩
  · simp only [WriteArray, content_Write, if_true, Option.map_some', List.nil_append]
  · intro p hp
    simp only [WriteArray, Write, if_neg hp]

/-! ## The claims -/


/-- C1. Round trip without compression: for every non-empty byte sequence `B` (a buffer, so
shorter than `2 ^ 63` bytes) held by a readable file, decoding the byte stream that
`EncodeFile` writes for `B` with `compress = false` yields exactly `B`: `LoadEncodedFile`
applied to that stream returns `B`, and `DecodeFile` applied to it, with any destination that
can be opened for writing, completes and leaves exactly `B` in the destination. -/
theorem roundtrip_uncompressed (zstd : Zstd) (fs : FileSystem)
    (input_path output_path : String) (B : List Byte) (_hB : B ≠ [])
    (hlen : B.length < 2 ^ 63) (hin : fs.content input_path = some B)
    (hout : fs.writable output_path = true) :
    LoadEncodedFile zstd (EncodeFile zstd fs input_path output_path false).1 output_path =
      .ok B ∧
    ∀ decoded_path : String, fs.writable decoded_path = true →
      (DecodeFile zstd (EncodeFile zstd fs input_path output_path false).1 output_path
        decoded_path).2 = .ok () ∧
      (DecodeFile zstd (EncodeFile zstd fs input_path output_path false).1 output_path
        decoded_path).1.content decoded_path = some B := by
  have hload := (roundtrip_raw zstd fs input_path output_path B hlen hin hout).2
  refine ⟨hload, fun decoded_path hdst => ?_⟩
  have hw : (EncodeFile zstd fs input_path output_path false).1.writable decoded_path =
      true := by
    rw [EncodeFile_raw zstd fs input_path output_path B hin (by omega),
      SaveEncodedFile_writable fs output_path B.length 0 B hout hlen]
    exact hdst
  have hd := DecodeFile_content zstd _ output_path decoded_path B hload hw
  exact ⟨hd.1, hd.2.1⟩

theorem roundtrip_uncompressed_witness :
    LoadEncodedFile storeZstd
      (EncodeFile storeZstd digitsFS "digits.txt" "digits.txt.bmp" false).1 "digits.txt.bmp" =
      .ok digits ∧
    (DecodeFile storeZstd (EncodeFile storeZstd digitsFS "digits.txt" "digits.txt.bmp" false).1
      "digits.txt.bmp" "digits.out").2 = .ok () ∧
    (DecodeFile storeZstd (EncodeFile storeZstd digitsFS "digits.txt" "digits.txt.bmp" false).1
      "digits.txt.bmp" "digits.out").1.content "digits.out" = some digits :=
  have h := roundtrip_uncompressed storeZstd digitsFS "digits.txt" "digits.txt.bmp" digits
    (by decide) (by decide) (by decide) rfl
  ⟨h.1, h.2 "digits.out" rfl⟩

/-- C2 (as stated) fails for a codec whose compressed output is empty: with `emptyZstd`,
decompressing `compress([7])` into a capacity of one byte produces exactly `[7]`, yet
`EncodeFile` records `stored_size = 0`, so `LoadEncodedFile` takes the raw branch, finds no
payload byte after the framing and its result is undefined instead of `[7]`. -/
theorem roundtrip_compressed_empty_frame :
    emptyZstd.compress (emptyZstd.compressBound [byte 7].length) [byte 7] = .ok [] ∧
    emptyZstd.decompress [byte 7].length [] = .ok [byte 7] ∧
    sevenFS.content "seven" = some [byte 7] ∧
    LoadEncodedFile emptyZstd (EncodeFile emptyZstd sevenFS "seven" "seven.bmp" true).1
      "seven.bmp" = .error .undefined := by
  refine ⟨rfl, rfl, by decide, ?_⟩
  rw [EncodeFile_compressed emptyZstd sevenFS "seven" "seven.bmp" [byte 7] [] (by decide)
    (by decide) rfl]
  have hc : CalculateSize ((([] : List Byte).length + 2 * 8) % 2 ^ 64) = some (4, 1) := by
    rw [show (([] : List Byte).length + 2 * 8) % 2 ^ 64 = 16 by decide,
      CalculateSize_of_seed 16 2 (by norm_num) (by norm_num) (by norm_num)]
    decide
  rw [SaveEncodedFile_eq sevenFS "seven.bmp" _ _ [] 4 1 rfl hc]
  rw [LoadEncodedFile_stream emptyZstd _ "seven.bmp" (BMPHeader.new 4 1 4).bytes [] 1 0
    (length_bytes _) (by norm_num) (by norm_num)]
  · rfl
  · rw [content_five_writes]
    rfl

/-- C2 (amended). Round trip with compression: for every non-empty byte sequence `B` and
every compressor and decompressor pair for which `compress(B)` is non-empty and
decompressing `compress(B)` into a capacity of `length(B)` produces exactly `B`, the
`stored_size` field that `EncodeFile` writes with `compress = true` is `length(compress(B))`
and is non-zero, `LoadEncodedFile` applied to the byte stream written takes the
decompression branch, and it returns exactly `B`. -/
theorem roundtrip_compressed (zstd : Zstd) (fs : FileSystem)
    (input_path output_path : String) (B c : List Byte) (_hB : B ≠ [])
    (hlen : B.length < 2 ^ 63) (hin : fs.content input_path = some B)
    (hout : fs.writable output_path = true)
    (hcomp : zstd.compress (zstd.compressBound B.length) B = .ok c)
    (hc0 : c ≠ []) (hclen : c.length < 2 ^ 63)
    (hdec : zstd.decompress B.length c = .ok B) :
    (∃ s, (EncodeFile zstd fs input_path output_path true).1.content output_path = some s ∧
      fieldAt s 62 8 = c.length ∧ fieldAt s 62 8 ≠ 0) ∧
    LoadEncodedFile zstd (EncodeFile zstd fs input_path output_path true).1 output_path =
      Decompress zstd c B.length ∧
    LoadEncodedFile zstd (EncodeFile zstd fs input_path output_path true).1 output_path =
      .ok B := by
  rw [EncodeFile_compressed zstd fs input_path output_path B c hin (by omega) hcomp]
  obtain ⟨w, h, -, -, -, -, -, -, -, -, hcontent⟩ :=
    SaveEncodedFile_content fs output_path B.length c.length c hout hclen
  have hcpos : c.length ≠ 0 := by
    intro h0
    exact hc0 (List.length_eq_zero.mp h0)
  have hf := (fieldAt_framing (BMPHeader.new w h 4).bytes
    (c ++ List.replicate (((BMPHeader.new w h 4).pixels_size +
      (2 ^ 64 - (c.length + 16))) % 2 ^ 64) (byte 0)) B.length c.length (length_bytes _)).2.1
  rw [Nat.mod_eq_of_lt (show c.length < 2 ^ 64 by omega)] at hf
  have hload := LoadEncodedFile_stream zstd _ output_path _ _ B.length c.length
    (length_bytes _) (by omega) (by omega) hcontent
  rw [if_pos hcpos, if_pos (by simp), List.take_left] at hload
  refine ⟨⟨_, hcontent, hf, by rw [hf]; exact hcpos⟩, hload, ?_⟩
  rw [hload]
  exact Decompress_ok zstd c B B.length hdec rfl

theorem roundtrip_compressed_witness :
    LoadEncodedFile storeZstd
      (EncodeFile storeZstd digitsFS "digits.txt" "digits.txt.bmp" true).1 "digits.txt.bmp" =
      .ok digits :=
  (roundtrip_compressed storeZstd digitsFS "digits.txt" "digits.txt.bmp" digits
    (byte 1 :: digits) (by decide) (by decide) (by decide) rfl rfl (by decide)
    (by decide) rfl).2.2

/-- C3 (as stated) fails at both ends of the range of byte counts. At `n = 0` the seed is
zero and the first `DivCeil` divides by it, so no pair is returned. At `n = 2 ^ 64 - 2 ^ 35`
the width `2 ^ 31` does not fit an `int32_t`: the pair returned is
`(-2147483648, 2147483644)` and `4 * w * h` is negative. -/
theorem canvas_fails_at_range_ends :
    CalculateSize 0 = none ∧
    CalculateSize (2 ^ 64 - 2 ^ 35) = some (-2147483648, 2147483644) ∧
    (4 * (-2147483648) * 2147483644 : Int) < ((2 ^ 64 - 2 ^ 35 : Nat) : Int) := by
  refine ⟨?_, ?_, by decide⟩
  · rw [CalculateSize_of_seed 0 0 (by norm_num) (by norm_num) (by norm_num)]
    decide
  · rw [CalculateSize_of_sqrt _ _ sqrt_uint64_t_wrap]
    decide

/-- C3 (amended). The canvas never cuts off data: for every byte count `n` with
`1 ≤ n < 2 ^ 63`, `CalculateSize n` returns a pair `(w, h)` with `4 * w * h ≥ n`; the pairs
for `n` in `{1, 4, 16, 1000, 1000000}` are `(4, 1)`, `(4, 1)`, `(4, 1)`, `(20, 13)` and
`(500, 500)`. Being a function, `CalculateSize` returns the same pair for the same `n`. -/
theorem canvas_covers_data :
    (∀ n : Nat, 1 ≤ n → n < 2 ^ 63 →
      ∃ w h : Int, CalculateSize n = some (w, h) ∧ (n : Int) ≤ 4 * w * h) ∧
    CalculateSize 1 = some (4, 1) ∧ CalculateSize 4 = some (4, 1) ∧
    CalculateSize 16 = some (4, 1) ∧ CalculateSize 1000 = some (20, 13) ∧
    CalculateSize 1000000 = some (500, 500) := by
  refine ⟨?_, ?_, ?_, ?_, ?_, ?_⟩
  · intro n h1 h2
    obtain ⟨w, h, hc, -, -, -, -, -, -, hcov, -⟩ := CalculateSize_eq n h1 (by omega)
    refine ⟨w, h, hc, ?_⟩
    have hn : n ≤ 4 * (w * h) := by omega
    have hcast : ((n : Nat) : Int) ≤ ((4 * (w * h) : Nat) : Int) := by exact_mod_cast hn
    push_cast at hcast
    linarith
  · rw [CalculateSize_of_seed 1 1 (by norm_num) (by norm_num) (by norm_num)]
    decide
  · rw [CalculateSize_of_seed 4 1 (by norm_num) (by norm_num) (by norm_num)]
    decide
  · rw [CalculateSize_of_seed 16 2 (by norm_num) (by norm_num) (by norm_num)]
    decide
  · rw [CalculateSize_of_seed 1000 15 (by norm_num) (by norm_num) (by norm_num)]
    decide
  · rw [CalculateSize_of_seed 1000000 500 (by norm_num) (by norm_num) (by norm_num)]
    decide

theorem canvas_covers_data_witness :
    ∃ w h : Int, CalculateSize 26 = some (w, h) ∧ ((26 : Nat) : Int) ≤ 4 * w * h :=
  canvas_covers_data.1 26 (by decide) (by decide)

/-- C4 (as stated) fails: a payload of `2 ^ 34 - 16` bytes gets the canvas
`(65536, 65536)`, whose `4 * x * y = 2 ^ 34` bytes do not fit the 32-bit field, and the
header built for it has `pixels_size = 0` and `size = 54`. -/
theorem header_size_fields_wrap :
    CalculateSize (2 ^ 34) = some (65536, 65536) ∧
    (BMPHeader.new 65536 65536 4).pixels_size = 0 ∧
    ((BMPHeader.new 65536 65536 4).pixels_size : Int) ≠ 4 * 65536 * 65536 ∧
    (BMPHeader.new 65536 65536 4).size = 54 := by
  refine ⟨?_, by decide, by decide, by decide⟩
  rw [CalculateSize_of_seed (2 ^ 34) 65536 (by norm_num) (by norm_num) (by norm_num)]
  decide

/-- C4 (amended). Header consistency: for every header built by `BMPHeader(x, y)` with the
default four bytes per pixel, `offset = sizeof(BMPHeader) = 54` and `depth = 32`;
`pixels_size` is `4 * x * y` reduced modulo `2 ^ 32` and `size` is `pixels_size + 54`
reduced modulo `2 ^ 32`; whenever `x` and `y` are non-negative and `4 * x * y + 54 < 2 ^ 32`
they are exactly `4 * x * y` and `pixels_size + 54`, and this is the case for the header
`SaveEncodedFile` builds whenever framing and payload take at most `4000000000` bytes. -/
theorem header_consistency (x y : Int) :
    (BMPHeader.new x y 4).offset = 54 ∧ BMPHeader.sizeof = 54 ∧
    (BMPHeader.new x y 4).depth = 32 ∧
    ((BMPHeader.new x y 4).pixels_size : Int) = (4 * x * y) % 2 ^ 32 ∧
    (BMPHeader.new x y 4).size = ((BMPHeader.new x y 4).pixels_size + 54) % 2 ^ 32 ∧
    (0 ≤ x → 0 ≤ y → 4 * x * y + 54 < 2 ^ 32 →
      ((BMPHeader.new x y 4).pixels_size : Int) = 4 * x * y ∧
      (BMPHeader.new x y 4).size = (BMPHeader.new x y 4).pixels_size + 54) ∧
    (∀ n : Nat, 16 ≤ n → n ≤ 4000000000 → ∃ w h : Int, CalculateSize n = some (w, h) ∧
      ((BMPHeader.new w h 4).pixels_size : Int) = 4 * w * h ∧
      (BMPHeader.new w h 4).size = (BMPHeader.new w h 4).pixels_size + 54) := by
  refine ⟨rfl, rfl, rfl, pixels_size_new x y, rfl, ?_, ?_⟩
  · intro hx hy hfit
    have hp : ((BMPHeader.new x y 4).pixels_size : Int) = 4 * x * y := by
      rw [pixels_size_new, Int.emod_eq_of_lt (by positivity) (by linarith)]
    refine ⟨hp, ?_⟩
    rw [size_new]
    apply Nat.mod_eq_of_lt
    have hlt : (((BMPHeader.new x y 4).pixels_size + 54 : Nat) : Int) < 2 ^ 32 := by
      push_cast
      rw [hp]
      exact hfit
    exact_mod_cast hlt
  · intro n h1 h2
    obtain ⟨w, h, hc, -, -, -, -, -, -, -, hfits⟩ := CalculateSize_fits n (by omega) h2
    have hp : (BMPHeader.new (w : Int) (h : Int) 4).pixels_size = 4 * (w * h) :=
      pixels_size_new_of_fits w h (by omega)
    refine ⟨w, h, hc, ?_, ?_⟩
    · rw [hp]
      push_cast
      ring
    · rw [size_new, hp, Nat.mod_eq_of_lt hfits]

theorem header_consistency_witness :
    ((BMPHeader.new 4 2 4).pixels_size : Int) = 4 * 4 * 2 ∧
    (BMPHeader.new 4 2 4).size = (BMPHeader.new 4 2 4).pixels_size + 54 :=
  (header_consistency 4 2).2.2.2.2.2.1 (by decide) (by decide) (by decide)

/-- C5. Header byte layout: the stream `EncodeFile` writes, with either value of the flag,
begins with the 54 bytes of the header, all integers little-endian and packed: magic
`0x4D42` (the bytes `B`, `M`) at 0, `file_size` at 2, `reserved0 = 0` at 6, `reserved1 = 0`
at 8, `pixel_offset = 54` at 10, `info_header_size = 40` at 14, width at 18, height at 22,
`planes = 1` at 26, `bit_depth = 32` at 28, `compression_method = 0` at 30, `pixels_size` at
34, `h_res = 2835` at 38, `v_res = 2835` at 42, `palette_colors = 0` at 46 and
`important_colors = 0` at 50, where width and height are the pair `CalculateSize` returns
for the payload length plus 16. -/
theorem header_layout (zstd : Zstd) (fs : FileSystem) (input_path output_path : String)
    (compress : Bool) (B payload : List Byte) (hin : fs.content input_path = some B)
    (hout : fs.writable output_path = true) (hlen : B.length < 2 ^ 63)
    (hplen : payload.length < 2 ^ 63)
    (hpay : (compress = false ∧ payload = B) ∨
      (compress = true ∧ zstd.compress (zstd.compressBound B.length) B = .ok payload)) :
    ∃ (s : List Byte) (w h : Nat),
      (EncodeFile zstd fs input_path output_path compress).1.content output_path = some s ∧
      CalculateSize (payload.length + 16) = some ((w : Int), (h : Int)) ∧
      s.take 54 = (BMPHeader.new w h 4).bytes ∧ (s.take 54).length = 54 ∧
      s.take 2 = [byte 0x42, byte 0x4D] ∧
      fieldAt s 0 2 = 0x4D42 ∧ fieldAt s 2 4 = (BMPHeader.new w h 4).size ∧
      fieldAt s 6 2 = 0 ∧ fieldAt s 8 2 = 0 ∧ fieldAt s 10 4 = 54 ∧ fieldAt s 14 4 = 40 ∧
      fieldAt s 18 4 = w ∧ fieldAt s 22 4 = h ∧ fieldAt s 26 2 = 1 ∧ fieldAt s 28 2 = 32 ∧
      fieldAt s 30 4 = 0 ∧ fieldAt s 34 4 = (BMPHeader.new w h 4).pixels_size ∧
      fieldAt s 38 4 = 2835 ∧ fieldAt s 42 4 = 2835 ∧ fieldAt s 46 4 = 0 ∧
      fieldAt s 50 4 = 0 := by
  rw [EncodeFile_eq_save zstd fs input_path output_path compress B payload hin (by omega) hpay]
  obtain ⟨w, h, hc, -, hw31, -, hh31, -, -, -, hcontent⟩ :=
    SaveEncodedFile_content fs output_path B.length (if compress then payload.length else 0)
      payload hout hplen
  refine ⟨_, w, h, hcontent, hc, ?_⟩
  have hl : (BMPHeader.new w h 4).bytes.length = 54 := length_bytes _
  generalize (leBytes 8 B.length ++ (leBytes 8 (if compress then payload.length else 0) ++
    (payload ++ List.replicate (((BMPHeader.new w h 4).pixels_size +
      (2 ^ 64 - (payload.length + 16))) % 2 ^ 64) (byte 0)))) = tail
  have hf := fieldAt_bytes (BMPHeader.new (w : Int) (h : Int) 4)
  have hleft : ∀ off width, off + width ≤ 54 →
      fieldAt ((BMPHeader.new w h 4).bytes ++ tail) off width =
        fieldAt (BMPHeader.new w h 4).bytes off width := by
    intro off width hle
    exact fieldAt_append_left _ _ _ _ (by omega)
  have hps : (BMPHeader.new (w : Int) (h : Int) 4).pixels_size % 2 ^ 32 =
      (BMPHeader.new (w : Int) (h : Int) 4).pixels_size := Nat.mod_mod _ _
  have hsz : (BMPHeader.new (w : Int) (h : Int) 4).size % 2 ^ 32 =
      (BMPHeader.new (w : Int) (h : Int) 4).size := Nat.mod_mod _ _
  have hx : toU32 (BMPHeader.new (w : Int) (h : Int) 4).x % 2 ^ 32 = w := by
    show toU32 (w : Int) % 2 ^ 32 = w
    rw [toU32_of_lt w (by omega), Nat.mod_eq_of_lt (by omega)]
  have hy : toU32 (BMPHeader.new (w : Int) (h : Int) 4).y % 2 ^ 32 = h := by
    show toU32 (h : Int) % 2 ^ 32 = h
    rw [toU32_of_lt h (by omega), Nat.mod_eq_of_lt (by omega)]
  obtain ⟨f0, f2, f6, f8, f10, f14, f18, f22, f26, f28, f30, f34, f38, f42, f46, f50⟩ := hf
  rw [hps] at f34
  rw [hsz] at f2
  rw [hx] at f18
  rw [hy] at f22
  refine ⟨List.take_left' hl, by rw [List.take_left' hl, hl], ?_, ?_, ?_, ?_, ?_, ?_, ?_, ?_,
    ?_, ?_, ?_, ?_, ?_, ?_, ?_, ?_, ?_⟩
  · have h2 : ((BMPHeader.new w h 4).bytes ++ tail).take 2 =
        (BMPHeader.new w h 4).bytes.take 2 := List.take_append_of_le_length (by omega)
    have h3 : (BMPHeader.new w h 4).bytes.take 2 = leBytes 2 0x4D42 := by
      unfold BMPHeader.bytes
      simp only [List.append_assoc]
      exact List.take_left' (length_leBytes 2 _)
    rw [h2, h3]
    decide
  · rw [hleft 0 2 (by norm_num), f0]; rfl
  · rw [hleft 2 4 (by norm_num), f2]
  · rw [hleft 6 2 (by norm_num), f6]; rfl
  · rw [hleft 8 2 (by norm_num), f8]; rfl
  · rw [hleft 10 4 (by norm_num), f10]; rfl
  · rw [hleft 14 4 (by norm_num), f14]; rfl
  · rw [hleft 18 4 (by norm_num), f18]
  · rw [hleft 22 4 (by norm_num), f22]
  · rw [hleft 26 2 (by norm_num), f26]; rfl
  · rw [hleft 28 2 (by norm_num), f28]; rfl
  · rw [hleft 30 4 (by norm_num), f30]; rfl
  · rw [hleft 34 4 (by norm_num), f34]
  · rw [hleft 38 4 (by norm_num), f38]; rfl
  · rw [hleft 42 4 (by norm_num), f42]; rfl
  · rw [hleft 46 4 (by norm_num), f46]; rfl
  · rw [hleft 50 4 (by norm_num), f50]; rfl

theorem header_layout_witness :
    ∃ (s : List Byte) (w h : Nat),
      (EncodeFile storeZstd digitsFS "digits.txt" "digits.txt.bmp" false).1.content
        "digits.txt.bmp" = some s ∧
      CalculateSize (digits.length + 16) = some ((w : Int), (h : Int)) ∧
      s.take 54 = (BMPHeader.new w h 4).bytes ∧ (s.take 54).length = 54 ∧
      s.take 2 = [byte 0x42, byte 0x4D] ∧
      fieldAt s 0 2 = 0x4D42 ∧ fieldAt s 2 4 = (BMPHeader.new w h 4).size ∧
      fieldAt s 6 2 = 0 ∧ fieldAt s 8 2 = 0 ∧ fieldAt s 10 4 = 54 ∧ fieldAt s 14 4 = 40 ∧
      fieldAt s 18 4 = w ∧ fieldAt s 22 4 = h ∧ fieldAt s 26 2 = 1 ∧ fieldAt s 28 2 = 32 ∧
      fieldAt s 30 4 = 0 ∧ fieldAt s 34 4 = (BMPHeader.new w h 4).pixels_size ∧
      fieldAt s 38 4 = 2835 ∧ fieldAt s 42 4 = 2835 ∧ fieldAt s 46 4 = 0 ∧
      fieldAt s 50 4 = 0 :=
  header_layout storeZstd digitsFS "digits.txt" "digits.txt.bmp" false digits digits
    (by decide) rfl (by decide) (by decide) (Or.inl ⟨rfl, rfl⟩)

/-- C6. Framing and payload placement: for every input `B`, the stream `EncodeFile` writes
has the 8-byte little-endian `original_size = length(B)` at offset 54, the 8-byte
little-endian `stored_size` at offset 62 and the payload from offset 70 on; with
`compress = false` the `stored_size` is 0 and the payload is `B`, with `compress = true`
the `stored_size` is `length(compress(B))` and the payload is `compress(B)`. -/
theorem framing_and_payload (zstd : Zstd) (fs : FileSystem) (input_path output_path : String)
    (B : List Byte) (hin : fs.content input_path = some B)
    (hout : fs.writable output_path = true) (hlen : B.length < 2 ^ 63) :
    (∃ s, (EncodeFile zstd fs input_path output_path false).1.content output_path = some s ∧
      fieldAt s 54 8 = B.length ∧ fieldAt s 62 8 = 0 ∧ (s.drop 70).take B.length = B) ∧
    (∀ c, zstd.compress (zstd.compressBound B.length) B = .ok c → c.length < 2 ^ 63 →
      ∃ s, (EncodeFile zstd fs input_path output_path true).1.content output_path = some s ∧
        fieldAt s 54 8 = B.length ∧ fieldAt s 62 8 = c.length ∧
        (s.drop 70).take c.length = c) := by
  constructor
  · rw [EncodeFile_raw zstd fs input_path output_path B hin (by omega)]
    obtain ⟨w, h, -, -, -, -, -, -, -, -, hcontent⟩ :=
      SaveEncodedFile_content fs output_path B.length 0 B hout hlen
    obtain ⟨f1, f2, f3⟩ := fieldAt_framing (BMPHeader.new w h 4).bytes
      (B ++ List.replicate (((BMPHeader.new w h 4).pixels_size +
        (2 ^ 64 - (B.length + 16))) % 2 ^ 64) (byte 0)) B.length 0 (length_bytes _)
    refine ⟨_, hcontent, ?_, ?_, ?_⟩
    · rw [f1, Nat.mod_eq_of_lt (by omega)]
    · rw [f2]
      rfl
    · rw [f3, List.take_left]
  · intro c hcomp hclen
    rw [EncodeFile_compressed zstd fs input_path output_path B c hin (by omega) hcomp]
    obtain ⟨w, h, -, -, -, -, -, -, -, -, hcontent⟩ :=
      SaveEncodedFile_content fs output_path B.length c.length c hout hclen
    obtain ⟨f1, f2, f3⟩ := fieldAt_framing (BMPHeader.new w h 4).bytes
      (c ++ List.replicate (((BMPHeader.new w h 4).pixels_size +
        (2 ^ 64 - (c.length + 16))) % 2 ^ 64) (byte 0)) B.length c.length (length_bytes _)
    refine ⟨_, hcontent, ?_, ?_, ?_⟩
    · rw [f1, Nat.mod_eq_of_lt (by omega)]
    · rw [f2, Nat.mod_eq_of_lt (by omega)]
    · rw [f3, List.take_left]

theorem framing_and_payload_witness :
    ∃ s, (EncodeFile storeZstd digitsFS "digits.txt" "digits.txt.bmp" true).1.content
        "digits.txt.bmp" = some s ∧
      fieldAt s 54 8 = digits.length ∧ fieldAt s 62 8 = (byte 1 :: digits).length ∧
      (s.drop 70).take (byte 1 :: digits).length = byte 1 :: digits :=
  (framing_and_payload storeZstd digitsFS "digits.txt" "digits.txt.bmp" digits
    (by decide) rfl (by decide)).2 (byte 1 :: digits) rfl (by decide)

/-- C7 (as stated) fails for a payload of `2 ^ 32` bytes: the canvas `(32772, 32765)` needs
`4295098320` bytes, the 32-bit `pixels_size` holds `131024`, which is less than the
`2 ^ 32 + 16` bytes of framing and payload, so `pixels_size - (16 + payload_length)` is
negative; computed in `uint64_t` the padding count wraps to `2 ^ 64 - 2 ^ 32 + 131008`, a
buffer no allocator provides, and even granted that buffer the output is not
`54 + pixels_size` bytes long. -/
theorem padding_count_wraps :
    CalculateSize ((List.replicate (2 ^ 32) (byte 0)).length + 16) = some (32772, 32765) ∧
    (BMPHeader.new 32772 32765 4).pixels_size = 131024 ∧
    (BMPHeader.new 32772 32765 4).pixels_size < 16 + (List.replicate (2 ^ 32) (byte 0)).length ∧
    ∃ s, (SaveEncodedFile digitsFS "out.bmp" (2 ^ 32) 0
        (List.replicate (2 ^ 32) (byte 0))).1.content "out.bmp" = some s ∧
      s.length = 54 + (16 + 2 ^ 32 + (2 ^ 64 - 2 ^ 32 + 131008)) ∧
      s.length ≠ 54 + (BMPHeader.new 32772 32765 4).pixels_size := by
  have hlen : (List.replicate (2 ^ 32) (byte 0)).length = 2 ^ 32 := List.length_replicate _ _
  have hc : CalculateSize (2 ^ 32 + 16) = some (32772, 32765) := by
    rw [CalculateSize_of_seed (2 ^ 32 + 16) 32768 (by norm_num) (by norm_num) (by norm_num)]
    decide
  have hp : (BMPHeader.new 32772 32765 4).pixels_size = 131024 := by decide
  have hc2 : CalculateSize (((List.replicate (2 ^ 32) (byte 0)).length + 2 * 8) % 2 ^ 64) =
      some (32772, 32765) := by
    rw [hlen, show (2 ^ 32 + 2 * 8) % 2 ^ 64 = 2 ^ 32 + 16 by norm_num]
    exact hc
  refine ⟨by rw [hlen]; exact hc, hp, by rw [hp, hlen]; norm_num, ?_⟩
  rw [SaveEncodedFile_eq digitsFS "out.bmp" _ _ _ 32772 32765 rfl hc2, content_five_writes]
  refine ⟨_, rfl, ?_, ?_⟩
  · simp only [List.length_append, length_bytes, length_leBytes, List.length_replicate, hp]
    norm_num
  · simp only [List.length_append, length_bytes, length_leBytes, List.length_replicate, hp]
    norm_num

/-- C7 (amended). Padding fills the canvas exactly: for every payload with
`16 + payload_length ≤ 4000000000` written by `SaveEncodedFile`, the bytes after the payload
are all zero and their count is `pad_length = pixels_size - (16 + payload_length)`, which is
non-negative; the bytes written after the header number exactly `pixels_size = 4 * w * h`
and the whole output has exactly `file_size = 54 + pixels_size` bytes, the value stored in
the header at offset 2. -/
theorem padding_fills_canvas (fs : FileSystem) (path : String) (size compressed : Nat)
    (data : List Byte) (hout : fs.writable path = true)
    (hfit : 16 + data.length ≤ 4000000000) :
    ∃ (s : List Byte) (w h pad : Nat),
      (SaveEncodedFile fs path size compressed data).1.content path = some s ∧
      (SaveEncodedFile fs path size compressed data).2 = .ok () ∧
      CalculateSize (data.length + 16) = some ((w : Int), (h : Int)) ∧
      s = (BMPHeader.new w h 4).bytes ++ (leBytes 8 size ++ (leBytes 8 compressed ++
        (data ++ List.replicate pad (byte 0)))) ∧
      pad + (16 + data.length) = (BMPHeader.new w h 4).pixels_size ∧
      (BMPHeader.new w h 4).pixels_size = 4 * (w * h) ∧
      (s.drop 54).length = (BMPHeader.new w h 4).pixels_size ∧
      s.length = 54 + (BMPHeader.new w h 4).pixels_size ∧
      s.length = (BMPHeader.new w h 4).size ∧ fieldAt s 2 4 = s.length := by
  obtain ⟨w, h, hc, -, -, -, -, -, hcov, -, hfits⟩ :=
    CalculateSize_fits (data.length + 16) (by omega) (by omega)
  have hn : (data.length + 2 * 8) % 2 ^ 64 = data.length + 16 := by omega
  have hc2 : CalculateSize ((data.length + 2 * 8) % 2 ^ 64) = some ((w : Int), (h : Int)) := by
    rw [hn]
    exact hc
  have hp : (BMPHeader.new (w : Int) (h : Int) 4).pixels_size = 4 * (w * h) :=
    pixels_size_new_of_fits w h (by omega)
  have hs : (BMPHeader.new (w : Int) (h : Int) 4).size = 4 * (w * h) + 54 := by
    rw [size_new, hp, Nat.mod_eq_of_lt hfits]
  have hpad : (4 * (w * h) + (2 ^ 64 - (data.length + 16))) % 2 ^ 64 =
      4 * (w * h) - (data.length + 16) := by omega
  have hl : (BMPHeader.new (w : Int) (h : Int) 4).bytes.length = 54 := length_bytes _
  have hlen : ((BMPHeader.new (w : Int) (h : Int) 4).bytes ++ (leBytes 8 size ++
      (leBytes 8 compressed ++ (data ++
        List.replicate (4 * (w * h) - (data.length + 16)) (byte 0))))).length =
      54 + 4 * (w * h) := by
    simp only [List.length_append, hl, length_leBytes, List.length_replicate]
    omega
  refine ⟨_, w, h, 4 * (w * h) - (data.length + 16), ?_, ?_, hc, rfl, ?_, hp, ?_, ?_, ?_, ?_⟩
  · rw [SaveEncodedFile_eq fs path size compressed data w h hout hc2, content_five_writes,
      hn, hp, hpad]
  · rw [SaveEncodedFile_eq fs path size compressed data w h hout hc2]
  · rw [hp]
    omega
  · rw [List.length_drop, hlen, hp]
    omega
  · rw [hlen, hp]
  · rw [hlen, hs]
    omega
  · rw [fieldAt_append_left _ _ 2 4 (by omega), (fieldAt_bytes _).2.1, hlen, hs]
    omega

theorem padding_fills_canvas_witness :
    ∃ (s : List Byte) (w h pad : Nat),
      (SaveEncodedFile digitsFS "digits.txt.bmp" 10 0 digits).1.content "digits.txt.bmp" =
        some s ∧
      (SaveEncodedFile digitsFS "digits.txt.bmp" 10 0 digits).2 = .ok () ∧
      CalculateSize (digits.length + 16) = some ((w : Int), (h : Int)) ∧
      s = (BMPHeader.new w h 4).bytes ++ (leBytes 8 10 ++ (leBytes 8 0 ++
        (digits ++ List.replicate pad (byte 0)))) ∧
      pad + (16 + digits.length) = (BMPHeader.new w h 4).pixels_size ∧
      (BMPHeader.new w h 4).pixels_size = 4 * (w * h) ∧
      (s.drop 54).length = (BMPHeader.new w h 4).pixels_size ∧
      s.length = 54 + (BMPHeader.new w h 4).pixels_size ∧
      s.length = (BMPHeader.new w h 4).size ∧ fieldAt s 2 4 = s.length :=
  padding_fills_canvas digitsFS "digits.txt.bmp" 10 0 digits rfl (by decide)

/-- C8. Corruption detection: `Decompress(buffer, expected_size)` fails with the
compressor's error when the decompressor reports one, fails with the error `Size mismatch`
when the decompressor succeeds with a byte count other than `expected_size`, and otherwise
returns the `expected_size` bytes produced; hence `LoadEncodedFile` on an image whose
`stored_size` is non-zero and whose `stored_size` compressed bytes inflate to a length
other than the recorded `original_size` fails with `Size mismatch` and returns no data. -/
theorem corruption_detection (zstd : Zstd) :
    (∀ (buffer : List Byte) (expected_size : Nat) (name : String),
      zstd.decompress expected_size buffer = .error name →
        Decompress zstd buffer expected_size = .error (.runtime_error name)) ∧
    (∀ (buffer out : List Byte) (expected_size : Nat),
      zstd.decompress expected_size buffer = .ok out → out.length ≠ expected_size →
        Decompress zstd buffer expected_size = .error (.runtime_error "Size mismatch")) ∧
    (∀ (buffer out : List Byte) (expected_size : Nat),
      zstd.decompress expected_size buffer = .ok out → out.length = expected_size →
        Decompress zstd buffer expected_size = .ok out) ∧
    (∀ (fs : FileSystem) (path : String) (hdr data rest out : List Byte)
      (original_size stored_size : Nat),
      hdr.length = 54 → original_size < 2 ^ 64 → stored_size < 2 ^ 64 → stored_size ≠ 0 →
      data.length = stored_size →
      fs.content path =
        some (hdr ++ (leBytes 8 original_size ++ (leBytes 8 stored_size ++ (data ++ rest)))) →
      zstd.decompress original_size data = .ok out → out.length ≠ original_size →
        LoadEncodedFile zstd fs path = .error (.runtime_error "Size mismatch")) := by
  have hmis : ∀ (buffer out : List Byte) (expected_size : Nat),
      zstd.decompress expected_size buffer = .ok out → out.length ≠ expected_size →
        Decompress zstd buffer expected_size = .error (.runtime_error "Size mismatch") := by
    intro buffer out expected_size hd hne
    unfold Decompress
    rw [hd]
    simp only
    rw [if_pos hne]
  refine ⟨?_, hmis, ?_, ?_⟩
  · intro buffer expected_size name hd
    unfold Decompress
    rw [hd]
  · intro buffer out expected_size hd hl
    exact Decompress_ok zstd buffer out expected_size hd hl
  · intro fs path hdr data rest out original_size stored_size hh hs hc hc0 hdl hfile hd hne
    rw [LoadEncodedFile_stream zstd fs path hdr (data ++ rest) original_size stored_size hh hs
      hc hfile, if_pos hc0, if_pos (by rw [List.length_append]; omega),
      List.take_left' hdl]
    exact hmis data out original_size hd hne

theorem corruption_detection_witness :
    LoadEncodedFile storeZstd
      (singleFile "bad.bmp" (List.replicate 54 (byte 0) ++
        (leBytes 8 5 ++ (leBytes 8 3 ++ ([byte 1, byte 8, byte 9] ++ [byte 0])))))
      "bad.bmp" = .error (.runtime_error "Size mismatch") :=
  (corruption_detection storeZstd).2.2.2
    (singleFile "bad.bmp" (List.replicate 54 (byte 0) ++
      (leBytes 8 5 ++ (leBytes 8 3 ++ ([byte 1, byte 8, byte 9] ++ [byte 0])))))
    "bad.bmp" (List.replicate 54 (byte 0)) [byte 1, byte 8, byte 9] [byte 0] [byte 8, byte 9]
    5 3 (by decide) (by decide) (by decide) (by decide) (by decide) (by decide) rfl
    (by decide)

/-- C9. Decode does not depend on the header contents: for any two input streams that agree
on every byte from offset 54 onward, whatever their first 54 bytes, `LoadEncodedFile`
produces the same result, the same bytes or the same failure. -/
theorem decode_ignores_header (zstd : Zstd) (fs1 fs2 : FileSystem) (path1 path2 : String)
    (hdr1 hdr2 rest : List Byte) (h1 : hdr1.length = 54) (h2 : hdr2.length = 54)
    (hf1 : fs1.content path1 = some (hdr1 ++ rest))
    (hf2 : fs2.content path2 = some (hdr2 ++ rest)) :
    LoadEncodedFile zstd fs1 path1 = LoadEncodedFile zstd fs2 path2 := by
  unfold LoadEncodedFile OpenFileRead Read_BMPHeader
  rw [hf1, hf2]
  simp only
  rw [Read_append hdr1 rest BMPHeader.sizeof h1, Read_append hdr2 rest BMPHeader.sizeof h2]

theorem decode_ignores_header_witness :
    LoadEncodedFile storeZstd (singleFile "a.bmp" digitsImage) "a.bmp" =
      LoadEncodedFile storeZstd (singleFile "b.bmp" defacedImage) "b.bmp" :=
  decode_ignores_header storeZstd (singleFile "a.bmp" digitsImage)
    (singleFile "b.bmp" defacedImage) "a.bmp" "b.bmp" (digitsImage.take 54)
    (List.replicate 54 (byte 255)) (digitsImage.drop 54) (by decide) (by decide)
    (by decide) (by decide)

/-- C10. Concrete scenario: encoding the ten bytes `0123456789` with compression disabled
writes the 86 bytes `digitsImage`: framing `original_size = 10` and `stored_size = 0`,
`n = 26` bytes of framing and payload in the pixel region, on the canvas
`CalculateSize 26 = (4, 2)`, which has `4 * 4 * 2 = 32 ≥ 26` and a width that is a
multiple of 4; and decoding that stream returns exactly `0123456789`. -/
theorem digits_scenario (zstd : Zstd) :
    (EncodeFile zstd digitsFS "digits.txt" "digits.txt.bmp" false).1.content
      "digits.txt.bmp" = some digitsImage ∧
    digits = [48, 49, 50, 51, 52, 53, 54, 55, 56, 57].map byte ∧
    fieldAt digitsImage 54 8 = 10 ∧ fieldAt digitsImage 62 8 = 0 ∧
    digits.length + 16 = 26 ∧
    (digitsImage.drop 54).take 26 = leBytes 8 10 ++ leBytes 8 0 ++ digits ∧
    CalculateSize 26 = some (4, 2) ∧ (26 : Int) ≤ 4 * 4 * 2 ∧ (4 : Int) % 4 = 0 ∧
    fieldAt digitsImage 18 4 = 4 ∧ fieldAt digitsImage 22 4 = 2 ∧
    LoadEncodedFile zstd (EncodeFile zstd digitsFS "digits.txt" "digits.txt.bmp" false).1
      "digits.txt.bmp" = .ok digits := by
  have hc : CalculateSize 26 = some (4, 2) := by
    rw [CalculateSize_of_seed 26 2 (by norm_num) (by norm_num) (by norm_num)]
    decide
  have hc2 : CalculateSize ((digits.length + 2 * 8) % 2 ^ 64) = some (4, 2) := hc
  have henc : (EncodeFile zstd digitsFS "digits.txt" "digits.txt.bmp" false).1.content
      "digits.txt.bmp" = some digitsImage := by
    rw [EncodeFile_raw zstd digitsFS "digits.txt" "digits.txt.bmp" digits (by decide)
      (by decide), SaveEncodedFile_eq digitsFS "digits.txt.bmp" _ _ digits 4 2 rfl hc2,
      content_five_writes]
    decide
  refine ⟨henc, by decide, by decide, by decide, by decide, by decide, hc, by decide,
    by decide, by decide, by decide, ?_⟩
  exact (roundtrip_raw zstd digitsFS "digits.txt" "digits.txt.bmp" digits (by decide)
    (by decide) rfl).2

/-! ## Lemmas for the behaviour of the sizing algorithm -/

/-- The ceiling of a quotient is what `DivCeil` computes when nothing wraps. -/
theorem ceilDiv_eq (a b : Nat) (hb : 0 < b) : ceilDiv a b = (a + b - 1) / b := by
  obtain ⟨h1, h2⟩ := divCeil_bounds a b hb
  unfold ceilDiv
  generalize (a + b - 1) / b = k at h1 h2
  have hbq : (0 : ℚ) < (b : ℚ) := by exact_mod_cast hb
  apply le_antisymm
  · rw [Nat.ceil_le, div_le_iff₀ hbq]
    exact_mod_cast h1
  · rcases Nat.eq_zero_or_pos k with hk | hk
    · omega
    · obtain ⟨j, rfl⟩ : ∃ j, k = j + 1 := ⟨k - 1, by omega⟩
      rw [Nat.succ_le_iff, Nat.lt_ceil, lt_div_iff₀ hbq]
      have hj : j * b < a := by nlinarith
      exact_mod_cast hj

theorem ceilDiv_four (n : Nat) : ceilDiv n 4 = (n + 3) / 4 :=
  ceilDiv_eq n 4 (by norm_num)

/-- The instance `DivCeil<uint64_t>` computes the ceiling whenever the sum does not wrap. -/
theorem DivCeil_eq_ceilDiv (a b : Nat) (hb : 0 < b) (hsum : a + b ≤ 2 ^ 64) :
    DivCeil a b = some (ceilDiv a b) := by
  unfold DivCeil
  rw [if_neg (by omega), ceilDiv_eq a b hb]
  have e : (a + b + (2 ^ 64 - 1)) % 2 ^ 64 = a + b - 1 := by omega
  rw [e]

/-- The canvas on every size whose pixel count is below `2 ^ 52`, where the seed is the
integer square root: the formulas for width and height and the near-square bounds. -/
theorem CalculateSize_exact (n : Nat) (h1 : 1 ≤ n) (h2 : n + 3 < 2 ^ 54) :
    ∃ w h : Nat, CalculateSize n = some ((w : Int), (h : Int)) ∧
      w = 4 * (((n + 3) / 4 + 4 * Nat.sqrt ((n + 3) / 4) - 1) / (4 * Nat.sqrt ((n + 3) / 4))) ∧
      h = ((n + 3) / 4 + w - 1) / w ∧
      1 ≤ Nat.sqrt ((n + 3) / 4) ∧ h ≤ Nat.sqrt ((n + 3) / 4) ∧ Nat.sqrt ((n + 3) / 4) ≤ w ∧
      w ≤ Nat.sqrt ((n + 3) / 4) + 5 ∧ (n + 3) / 4 ≤ w * Nat.sqrt ((n + 3) / 4) ∧
      4 ≤ w ∧ w < 2 ^ 31 ∧ 1 ≤ h ∧ (n + 3) / 4 ≤ w * h ∧ w * h < (n + 3) / 4 + w := by
  obtain ⟨w, h, hc, hwd, hhd, hw4, hw31, hh1, hhs, hcov, hmin⟩ :=
    CalculateSize_eq n h1 (by omega)
  have hsq : sqrt_uint64_t ((n + 3) / 4) = Nat.sqrt ((n + 3) / 4) :=
    sqrt_uint64_t_of_lt _ (by omega)
  rw [hsq] at hwd hhs
  have hs1 : Nat.sqrt ((n + 3) / 4) * Nat.sqrt ((n + 3) / 4) ≤ (n + 3) / 4 := Nat.sqrt_le _
  have hs2 : (n + 3) / 4 < (Nat.sqrt ((n + 3) / 4) + 1) * (Nat.sqrt ((n + 3) / 4) + 1) :=
    Nat.lt_succ_sqrt _
  have hs0 : 1 ≤ Nat.sqrt ((n + 3) / 4) := Nat.sqrt_pos.mpr (by omega)
  refine ⟨w, h, hc, hwd, hhd, hs0, hhs, ?_, ?_, ?_, hw4, hw31, hh1, hcov, hmin⟩
  all_goals
    generalize (n + 3) / 4 = p at *
    generalize Nat.sqrt p = s at *
    have hq := Nat.div_mul_le_self (p + 4 * s - 1) (4 * s)
    have hq2 := (divCeil_bounds p (4 * s) (by omega)).1
    generalize (p + 4 * s - 1) / (4 * s) = q at *
    have e3 : q * (4 * s) = 4 * q * s := by ring
  · have hss : s * s ≤ w * s := by
      rw [hwd, ← e3]
      omega
    exact Nat.le_of_mul_le_mul_right hss (by omega)
  · have e1 : (s + 1) * (s + 1) = s * s + 2 * s + 1 := by ring
    have e2 : (s + 6) * s = s * s + 6 * s := by ring
    have hlt : 4 * q * s < (s + 6) * s := by omega
    have hlt2 : 4 * q < s + 6 := Nat.lt_of_mul_lt_mul_right hlt
    omega
  · rw [hwd, ← e3]
    exact hq2

/-- Within that range the code returns the canvas the specification prescribes. -/
theorem CalculateSize_eq_spec (n : Nat) (h1 : 1 ≤ n) (h2 : n + 3 < 2 ^ 54) :
    CalculateSize n =
      some (((specCalculateSize n).1 : Int), ((specCalculateSize n).2 : Int)) := by
  obtain ⟨w, h, hc, hwd, hhd, hs0, -, -, -, -, hw4, -, -, -, -⟩ := CalculateSize_exact n h1 h2
  have hspec : specCalculateSize n = (w, h) := by
    unfold specCalculateSize
    simp only
    rw [ceilDiv_eq n 4 (by norm_num), show n + 4 - 1 = n + 3 by omega,
      ceilDiv_eq _ (Nat.sqrt ((n + 3) / 4) * 4) (by omega),
      Nat.mul_comm (Nat.sqrt ((n + 3) / 4)) 4, Nat.mul_comm _ 4, ← hwd,
      ceilDiv_eq _ w (by omega), ← hhd]
  rw [hspec]
  exact hc

/-! ## The seed as a divisor -/

theorem sqrt_uint64_t_pos (p : Nat) (h : 1 ≤ p) : 1 ≤ sqrt_uint64_t p := by
  obtain ⟨u, hu1, hu2, hu3⟩ := toDouble_bounds p
  unfold sqrt_uint64_t
  refine le_trans ?_ (sqrt_le_truncSqrt _)
  exact Nat.sqrt_pos.mpr (by omega)

theorem sqrt_uint64_t_ge_two (p : Nat) (h : 4 ≤ p) : 2 ≤ sqrt_uint64_t p := by
  obtain ⟨u, hu1, hu2, hu3⟩ := toDouble_bounds p
  unfold sqrt_uint64_t
  refine le_trans ?_ (sqrt_le_truncSqrt _)
  rw [Nat.le_sqrt]
  omega

theorem sqrt_uint64_t_le (p : Nat) (h : p < 2 ^ 62) : sqrt_uint64_t p ≤ 2 ^ 31 + 1 := by
  obtain ⟨u, hu1, hu2, hu3⟩ := toDouble_bounds p
  unfold sqrt_uint64_t
  refine le_trans (truncSqrt_le _) ?_
  have hs : Nat.sqrt (toDouble p) < 2 ^ 31 + 1 := by
    rw [Nat.sqrt_lt']
    norm_num
    omega
  omega

theorem sqrt_uint64_t_zero : sqrt_uint64_t 0 = 0 := by
  rw [sqrt_uint64_t_of_lt 0 (by norm_num), Nat.sqrt_zero]

/-- The only way `CalculateSize` divides by zero: the pixel count, computed in `uint64_t`,
is zero. -/
theorem CalculateSize_eq_none_iff (n : Nat) :
    CalculateSize n = none ↔ ((n + 3) % 2 ^ 64) / 4 = 0 := by
  have hp : ((n + 3) % 2 ^ 64) / 4 < 2 ^ 62 := by omega
  constructor
  · intro hnone
    by_contra hne
    have hp1 : 1 ≤ ((n + 3) % 2 ^ 64) / 4 := by omega
    have hs1 := sqrt_uint64_t_pos _ hp1
    have hs2 := sqrt_uint64_t_le _ hp
    rw [CalculateSize_of_sqrt n _ rfl] at hnone
    generalize ((n + 3) % 2 ^ 64) / 4 = p at *
    generalize sqrt_uint64_t p = s at *
    have e2 : s * 4 % 2 ^ 64 = 4 * s := by omega
    have e3 : (p + 4 * s + (2 ^ 64 - 1)) % 2 ^ 64 = p + 4 * s - 1 := by omega
    have hq := divCeil_bounds p (4 * s) (by omega)
    have hqle : (p + 4 * s - 1) / (4 * s) ≤ p := by
      apply Nat.div_le_of_le_mul
      have key : p + 4 * s ≤ 4 * s * p + 1 := by
        obtain ⟨a, rfl⟩ : ∃ a, p = a + 1 := ⟨p - 1, by omega⟩
        obtain ⟨b, rfl⟩ : ∃ b, s = b + 1 := ⟨s - 1, by omega⟩
        have hab : 0 ≤ a * b := Nat.zero_le _
        nlinarith
      omega
    rw [e2] at hnone
    simp only [DivCeil, e3, show ¬ (4 * s = 0) by omega, if_false] at hnone
    generalize (p + 4 * s - 1) / (4 * s) = q at *
    have hq1 : 1 ≤ q := by
      by_contra hc
      have hq0 : q = 0 := by omega
      rw [hq0] at hq
      omega
    have e4 : q * 4 % 2 ^ 64 = 4 * q := by omega
    rw [e4] at hnone
    simp only [show ¬ (4 * q = 0) by omega, if_false] at hnone
    exact absurd hnone (by simp)
  · intro h0
    rw [CalculateSize_of_sqrt n 0 (by rw [h0]; exact sqrt_uint64_t_zero), h0]
    rfl

theorem toDouble_round : toDouble 18014398509481983 = 18014398509481984 := by
  unfold toDouble
  rw [if_neg (by norm_num), log_eq_of 18014398509481983 53 (by norm_num) (by norm_num)]
  decide

theorem truncSqrt_round : truncSqrt 18014398509481984 = 134217728 := by
  unfold truncSqrt
  rw [sqrt_eq_of_sq 18014398509481984 134217728 (by norm_num) (by norm_num)]
  decide

theorem sqrt_uint64_t_round :
    sqrt_uint64_t (((2 ^ 56 - 4 + 3) % 2 ^ 64) / 4) = 134217728 := by
  have e : ((2 ^ 56 - 4 + 3) % 2 ^ 64) / 4 = 18014398509481983 := by norm_num
  rw [e]
  unfold sqrt_uint64_t
  rw [toDouble_round, truncSqrt_round]

theorem CalculateSize_round : CalculateSize (2 ^ 56 - 4) = some (134217728, 134217728) := by
  rw [CalculateSize_of_sqrt _ _ sqrt_uint64_t_round]
  decide

theorem specCalculateSize_round : specCalculateSize (2 ^ 56 - 4) = (134217732, 134217725) := by
  unfold specCalculateSize
  simp only
  rw [ceilDiv_eq _ 4 (by norm_num)]
  have e : (2 ^ 56 - 4 + 4 - 1) / 4 = 18014398509481983 := by norm_num
  rw [e, sqrt_eq_of_sq 18014398509481983 134217727 (by norm_num) (by norm_num),
    ceilDiv_eq _ _ (by norm_num)]
  have e2 : (18014398509481983 + 134217727 * 4 - 1) / (134217727 * 4) * 4 = 134217732 := by
    norm_num
  rw [e2, ceilDiv_eq _ _ (by norm_num)]

/-- Two values of `CalculateSize` at the same size are the same pair. -/
theorem CalculateSize_unique (n w h w2 h2 : Nat)
    (hc1 : CalculateSize n = some ((w : Int), (h : Int)))
    (hc2 : CalculateSize n = some ((w2 : Int), (h2 : Int))) : w = w2 ∧ h = h2 := by
  rw [hc1] at hc2
  simp only [Option.some.injEq, Prod.mk.injEq] at hc2
  exact ⟨by exact_mod_cast hc2.1, by exact_mod_cast hc2.2⟩

/-- The outcome of `SaveEncodedFile` when the destination cannot be opened. -/
theorem SaveEncodedFile_unwritable (fs : FileSystem) (path : String) (size compressed : Nat)
    (data : List Byte) (hw : fs.writable path = false) :
    SaveEncodedFile fs path size compressed data =
      (fs, .error (.runtime_error ("Couldn't open '" ++ path ++ "' for writing"))) := by
  unfold SaveEncodedFile OpenFileWrite
  rw [if_neg (by simp [hw])]


/-- The exception `LoadEncodedFile` throws when the image cannot be opened. -/
theorem LoadEncodedFile_unreadable (zstd : Zstd) (fs : FileSystem) (path : String)
    (h : fs.content path = none) :
    LoadEncodedFile zstd fs path =
      .error (.runtime_error ("Couldn't open '" ++ path ++ "' for reading")) := by
  unfold LoadEncodedFile OpenFileRead
  rw [h]

/-- An exception thrown by `LoadEncodedFile` leaves `DecodeFile` before it opens anything. -/
theorem DecodeFile_of_load_error (zstd : Zstd) (fs : FileSystem)
    (input_path output_path : String) (e : Error)
    (h : LoadEncodedFile zstd fs input_path = .error e) :
    DecodeFile zstd fs input_path output_path = (fs, .error e) := by
  unfold DecodeFile
  rw [h]


/-! ## The claims on the sizing algorithm and on failures -/

/-- C11. Smallest payload: encoding the empty input with compression disabled completes and
writes exactly 70 bytes, the header followed by `original_size = 0` and `stored_size = 0`,
with no payload and no padding (`n = 16`); the header is valid, with width 4 and height 1,
`pixels_size = 16 = 4 * 4 * 1 ≥ 16` and `file_size = 70 = pixels_size + 54`; and decoding
that stream yields the empty byte sequence. -/
theorem smallest_payload (zstd : Zstd) (fs : FileSystem) (input_path output_path : String)
    (hin : fs.content input_path = some []) (hout : fs.writable output_path = true) :
    (EncodeFile zstd fs input_path output_path false).2 = .ok () ∧
    (EncodeFile zstd fs input_path output_path false).1.content output_path =
      some ((BMPHeader.new 4 1 4).bytes ++ (leBytes 8 0 ++ leBytes 8 0)) ∧
    ((BMPHeader.new 4 1 4).bytes ++ (leBytes 8 0 ++ leBytes 8 0)).length = 54 + 16 ∧
    fieldAt ((BMPHeader.new 4 1 4).bytes ++ (leBytes 8 0 ++ leBytes 8 0)) 54 8 = 0 ∧
    fieldAt ((BMPHeader.new 4 1 4).bytes ++ (leBytes 8 0 ++ leBytes 8 0)) 62 8 = 0 ∧
    CalculateSize (([] : List Byte).length + 16) = some (4, 1) ∧
    fieldAt ((BMPHeader.new 4 1 4).bytes ++ (leBytes 8 0 ++ leBytes 8 0)) 18 4 = 4 ∧
    fieldAt ((BMPHeader.new 4 1 4).bytes ++ (leBytes 8 0 ++ leBytes 8 0)) 22 4 = 1 ∧
    fieldAt ((BMPHeader.new 4 1 4).bytes ++ (leBytes 8 0 ++ leBytes 8 0)) 34 4 = 4 * 4 * 1 ∧
    16 ≤ fieldAt ((BMPHeader.new 4 1 4).bytes ++ (leBytes 8 0 ++ leBytes 8 0)) 34 4 ∧
    fieldAt ((BMPHeader.new 4 1 4).bytes ++ (leBytes 8 0 ++ leBytes 8 0)) 2 4 =
      fieldAt ((BMPHeader.new 4 1 4).bytes ++ (leBytes 8 0 ++ leBytes 8 0)) 34 4 + 54 ∧
    LoadEncodedFile zstd (EncodeFile zstd fs input_path output_path false).1 output_path =
      .ok [] := by
  have hc : CalculateSize 16 = some (4, 1) := by
    rw [CalculateSize_of_seed 16 2 (by norm_num) (by norm_num) (by norm_num)]
    decide
  have hc2 : CalculateSize ((([] : List Byte).length + 2 * 8) % 2 ^ 64) = some (4, 1) := hc
  have hpad : ((BMPHeader.new 4 1 4).pixels_size +
      (2 ^ 64 - (([] : List Byte).length + 2 * 8) % 2 ^ 64)) % 2 ^ 64 = 0 := by decide
  have hround := roundtrip_raw zstd fs input_path output_path [] (by decide) hin hout
  refine ⟨hround.1, ?_, by decide, by decide, by decide, hc, by decide, by decide, by decide,
    by decide, by decide, hround.2⟩
  rw [EncodeFile_raw zstd fs input_path output_path [] hin (by decide),
    SaveEncodedFile_eq fs output_path _ _ [] 4 1 hout hc2, content_five_writes, hpad]
  rfl

theorem smallest_payload_witness :
    LoadEncodedFile storeZstd (EncodeFile storeZstd emptyFS "empty" "empty.bmp" false).1
      "empty.bmp" = .ok [] :=
  (smallest_payload storeZstd emptyFS "empty" "empty.bmp" (by decide) rfl).2.2.2.2.2.2.2.2.2.2.2

/-- C12 (as stated) fails at `n = 2 ^ 56 - 4`: the pixel count `2 ^ 54 - 1` is rounded to
`2 ^ 54` when converted to `double`, so the code's seed is `2 ^ 27` where
`floor(sqrt(pixels_needed))` is `2 ^ 27 - 1`, and the pair `CalculateSize` returns differs
from the specified one. -/
theorem sizing_departs_from_specification :
    sqrt_uint64_t (2 ^ 54 - 1) = 2 ^ 27 ∧ Nat.sqrt (2 ^ 54 - 1) = 2 ^ 27 - 1 ∧
    CalculateSize (2 ^ 56 - 4) = some (134217728, 134217728) ∧
    specCalculateSize (2 ^ 56 - 4) = (134217732, 134217725) := by
  refine ⟨?_, ?_, CalculateSize_round, specCalculateSize_round⟩
  · exact sqrt_uint64_t_round
  · exact sqrt_eq_of_sq _ _ (by norm_num) (by norm_num)

/-- C12 (amended). `CalculateSize` implements the specified sizing algorithm on every size
whose pixel count is below `2 ^ 52`: for every `n` with `1 ≤ n` and `n + 3 < 2 ^ 54`, with
`pixels_needed = ceil(n / 4)` and `side = floor(sqrt(pixels_needed))`, it returns
`w = ceil(pixels_needed / (side * 4)) * 4` and `h = ceil(pixels_needed / w)`; the code's
`(size + 3) / 4` is `ceil(size / 4)` and `DivCeil(a, b)` is `ceil(a / b)` whenever `b > 0`
and `a + b` does not exceed `2 ^ 64`. -/
theorem sizing_refines_specification (n : Nat) (h1 : 1 ≤ n) (h2 : n + 3 < 2 ^ 54) :
    CalculateSize n =
      some (((specCalculateSize n).1 : Int), ((specCalculateSize n).2 : Int)) ∧
    ((n + 3) % 2 ^ 64) / 4 = ceilDiv n 4 ∧
    sqrt_uint64_t (ceilDiv n 4) = Nat.sqrt (ceilDiv n 4) ∧
    (∀ a b : Nat, 0 < b → a + b ≤ 2 ^ 64 → DivCeil a b = some (ceilDiv a b)) := by
  refine ⟨CalculateSize_eq_spec n h1 h2, ?_, ?_, DivCeil_eq_ceilDiv⟩
  · rw [ceilDiv_four, Nat.mod_eq_of_lt (by omega)]
  · rw [ceilDiv_four]
    exact sqrt_uint64_t_of_lt _ (by omega)

theorem sizing_refines_specification_witness :
    CalculateSize 1000 =
      some (((specCalculateSize 1000).1 : Int), ((specCalculateSize 1000).2 : Int)) :=
  (sizing_refines_specification 1000 (by decide) (by decide)).1

/-- C13 (as stated) fails near the top of the `uint64_t` range: at `n = 2 ^ 64 - 2 ^ 35` the
width `2 ^ 31` is narrowed to the `int32_t` value `-2147483648`, which is not at least 4,
and at `n = 2 ^ 64 - 1` the sum `n + 3` wraps, the pixel count is zero and no pair is
returned. -/
theorem width_alignment_fails_near_top :
    CalculateSize (2 ^ 64 - 2 ^ 35) = some (-2147483648, 2147483644) ∧
    ¬ ((4 : Int) ≤ -2147483648) ∧ CalculateSize (2 ^ 64 - 1) = none := by
  refine ⟨?_, by decide, ?_⟩
  · rw [CalculateSize_of_sqrt _ _ sqrt_uint64_t_wrap]
    decide
  · rw [CalculateSize_eq_none_iff]
    decide

/-- C13 (amended). Width alignment: for every `n` with `1 ≤ n < 2 ^ 63`, the width `w`
returned by `CalculateSize n` is a positive multiple of 4 (`w ≥ 4` and `w mod 4 = 0`) and
the height `h` is at least 1. -/
theorem width_alignment (n : Nat) (h1 : 1 ≤ n) (h2 : n < 2 ^ 63) :
    ∃ w h : Int, CalculateSize n = some (w, h) ∧ 4 ≤ w ∧ w % 4 = 0 ∧ 1 ≤ h := by
  obtain ⟨w, h, hc, hwd, -, hw4, -, hh1, -, -, -⟩ := CalculateSize_eq n h1 (by omega)
  refine ⟨w, h, hc, by exact_mod_cast hw4, ?_, by exact_mod_cast hh1⟩
  have hmod : w % 4 = 0 := by omega
  exact_mod_cast hmod

theorem width_alignment_witness :
    ∃ w h : Int, CalculateSize 1000 = some (w, h) ∧ 4 ≤ w ∧ w % 4 = 0 ∧ 1 ≤ h :=
  width_alignment 1000 (by decide) (by decide)

/-- C14 (as stated) fails at both ends. At `n = 2 ^ 64 - 2 ^ 35` the pair returned is
`(-2147483648, 2147483644)` and `w * h` is negative, below the pixel count. For a payload of
`2 ^ 32` bytes the canvas is `(32772, 32765)` and the padding count computed by
`SaveEncodedFile` is `2 ^ 64 - 2 ^ 32 + 131008`, far more than the `4 * 32772` bytes of a
row. -/
theorem padding_longer_than_row :
    CalculateSize (2 ^ 64 - 2 ^ 35) = some (-2147483648, 2147483644) ∧
    ¬ (((ceilDiv (2 ^ 64 - 2 ^ 35) 4 : Nat) : Int) ≤ -2147483648 * 2147483644) ∧
    CalculateSize ((List.replicate (2 ^ 32) (byte 0)).length + 16) = some (32772, 32765) ∧
    (SaveEncodedFile digitsFS "out.bmp" (2 ^ 32) 0
        (List.replicate (2 ^ 32) (byte 0))).1.content "out.bmp" =
      some ((BMPHeader.new 32772 32765 4).bytes ++ (leBytes 8 (2 ^ 32) ++ (leBytes 8 0 ++
        (List.replicate (2 ^ 32) (byte 0) ++
          List.replicate (2 ^ 64 - 2 ^ 32 + 131008) (byte 0))))) ∧
    4 * 32772 ≤ 2 ^ 64 - 2 ^ 32 + 131008 := by
  have hlen : (List.replicate (2 ^ 32) (byte 0)).length = 2 ^ 32 := List.length_replicate _ _
  have hc : CalculateSize (2 ^ 32 + 16) = some (32772, 32765) := by
    rw [CalculateSize_of_seed (2 ^ 32 + 16) 32768 (by norm_num) (by norm_num) (by norm_num)]
    decide
  have hc2 : CalculateSize (((List.replicate (2 ^ 32) (byte 0)).length + 2 * 8) % 2 ^ 64) =
      some (32772, 32765) := by
    rw [hlen, show (2 ^ 32 + 2 * 8) % 2 ^ 64 = 2 ^ 32 + 16 by norm_num]
    exact hc
  have hp : (BMPHeader.new 32772 32765 4).pixels_size = 131024 := by decide
  refine ⟨?_, ?_, by rw [hlen]; exact hc, ?_, by norm_num⟩
  · rw [CalculateSize_of_sqrt _ _ sqrt_uint64_t_wrap]
    decide
  · rw [ceilDiv_four]
    norm_num
  · rw [SaveEncodedFile_eq digitsFS "out.bmp" _ _ _ 32772 32765 rfl hc2, content_five_writes,
      hp, hlen]
    norm_num

/-- C14 (amended). Minimal height: for every `n` with `1 ≤ n < 2 ^ 63`, the height `h`
returned by `CalculateSize n` is the least number of rows needed at width `w`, that is
`w * (h - 1) < ceil(n / 4) ≤ w * h`; and for every payload with
`16 + payload_length ≤ 4000000000` the zero padding written by `SaveEncodedFile` is shorter
than one canvas row, `pad_length < 4 * w`. -/
theorem minimal_height :
    (∀ n : Nat, 1 ≤ n → n < 2 ^ 63 → ∃ w h : Int, CalculateSize n = some (w, h) ∧
      w * (h - 1) < ((ceilDiv n 4 : Nat) : Int) ∧ ((ceilDiv n 4 : Nat) : Int) ≤ w * h) ∧
    (∀ (fs : FileSystem) (path : String) (size compressed : Nat) (data : List Byte),
      fs.writable path = true → 16 + data.length ≤ 4000000000 →
      ∃ w h pad : Nat, CalculateSize (data.length + 16) = some ((w : Int), (h : Int)) ∧
        (SaveEncodedFile fs path size compressed data).1.content path =
          some ((BMPHeader.new w h 4).bytes ++ (leBytes 8 size ++ (leBytes 8 compressed ++
            (data ++ List.replicate pad (byte 0))))) ∧
        pad < 4 * w) := by
  constructor
  · intro n h1 h2
    obtain ⟨w, h, hc, -, -, -, -, hh1, -, hcov, hmin⟩ := CalculateSize_eq n h1 (by omega)
    rw [ceilDiv_four]
    generalize (n + 3) / 4 = p at hcov hmin ⊢
    refine ⟨w, h, hc, ?_, by exact_mod_cast hcov⟩
    have hlt : ((w * h : Nat) : Int) < ((p + w : Nat) : Int) := by exact_mod_cast hmin
    push_cast at hlt
    linarith
  · intro fs path size compressed data hout hfit
    obtain ⟨w, h, hc, -, -, -, -, -, hcov, -, hfits⟩ :=
      CalculateSize_fits (data.length + 16) (by omega) (by omega)
    obtain ⟨w2, h2, hc2, -, -, -, -, -, -, -, hmin⟩ :=
      CalculateSize_eq (data.length + 16) (by omega) (by omega)
    obtain ⟨rfl, rfl⟩ := CalculateSize_unique _ _ _ _ _ hc hc2
    have hn : (data.length + 2 * 8) % 2 ^ 64 = data.length + 16 := by omega
    have hc3 : CalculateSize ((data.length + 2 * 8) % 2 ^ 64) = some ((w : Int), (h : Int)) := by
      rw [hn]
      exact hc
    have hp : (BMPHeader.new (w : Int) (h : Int) 4).pixels_size = 4 * (w * h) :=
      pixels_size_new_of_fits w h (by omega)
    have hpad : (4 * (w * h) + (2 ^ 64 - (data.length + 16))) % 2 ^ 64 =
        4 * (w * h) - (data.length + 16) := by omega
    refine ⟨w, h, 4 * (w * h) - (data.length + 16), hc, ?_, by omega⟩
    rw [SaveEncodedFile_eq fs path size compressed data w h hout hc3, content_five_writes,
      hn, hp, hpad]

theorem minimal_height_witness :
    ∃ w h : Int, CalculateSize 1000 = some (w, h) ∧
      w * (h - 1) < ((ceilDiv 1000 4 : Nat) : Int) ∧ ((ceilDiv 1000 4 : Nat) : Int) ≤ w * h :=
  minimal_height.1 1000 (by decide) (by decide)

/-- C15. No division by zero in the pipeline: for every payload (a buffer, so shorter than
`2 ^ 63` bytes) written by `SaveEncodedFile`, the byte count passed to `CalculateSize` is
`n = 16 + payload_length ≥ 16`, so `pixels_needed ≥ 4`, the seed and
`floor(sqrt(pixels_needed))` are at least 2, both divisors used by `CalculateSize`
(`side * 4` and `w`) are non-zero, a pair is returned and `SaveEncodedFile` never runs into
undefined behaviour. -/
theorem no_division_by_zero (fs : FileSystem) (path : String) (size compressed : Nat)
    (data : List Byte) (hlen : data.length < 2 ^ 63) :
    (data.length + 2 * 8) % 2 ^ 64 = 16 + data.length ∧ 16 ≤ 16 + data.length ∧
    ((16 + data.length + 3) % 2 ^ 64) / 4 = ceilDiv (16 + data.length) 4 ∧
    4 ≤ ceilDiv (16 + data.length) 4 ∧
    2 ≤ sqrt_uint64_t (ceilDiv (16 + data.length) 4) ∧
    2 ≤ Nat.sqrt (ceilDiv (16 + data.length) 4) ∧
    (sqrt_uint64_t (ceilDiv (16 + data.length) 4) * 4) % 2 ^ 64 ≠ 0 ∧
    (∃ q h : Nat,
      DivCeil (ceilDiv (16 + data.length) 4)
        ((sqrt_uint64_t (ceilDiv (16 + data.length) 4) * 4) % 2 ^ 64) = some q ∧
      (q * 4) % 2 ^ 64 ≠ 0 ∧
      DivCeil (ceilDiv (16 + data.length) 4) ((q * 4) % 2 ^ 64) = some h) ∧
    CalculateSize (16 + data.length) ≠ none ∧
    (SaveEncodedFile fs path size compressed data).2 ≠ .error .undefined := by
  have hp4 : 4 ≤ (16 + data.length + 3) / 4 := by omega
  have hpe : ceilDiv (16 + data.length) 4 = (16 + data.length + 3) / 4 := ceilDiv_four _
  have hs2 := sqrt_uint64_t_ge_two _ hp4
  have hsle := sqrt_uint64_t_le ((16 + data.length + 3) / 4) (by omega)
  have hnone : CalculateSize (16 + data.length) ≠ none := by
    rw [Ne, CalculateSize_eq_none_iff]
    omega
  refine ⟨by omega, by omega, ?_, by omega, ?_, ?_, ?_, ?_, hnone, ?_⟩
  · rw [hpe, Nat.mod_eq_of_lt (by omega)]
  · rw [hpe]
    exact hs2
  · rw [hpe, Nat.le_sqrt]
    omega
  · rw [hpe]
    omega
  · rw [hpe]
    have hpu : (16 + data.length + 3) / 4 < 2 ^ 62 := by omega
    generalize (16 + data.length + 3) / 4 = p at *
    generalize sqrt_uint64_t p = s at *
    have e2 : s * 4 % 2 ^ 64 = 4 * s := by omega
    have e3 : (p + 4 * s + (2 ^ 64 - 1)) % 2 ^ 64 = p + 4 * s - 1 := by omega
    have hq := divCeil_bounds p (4 * s) (by omega)
    have hqle : (p + 4 * s - 1) / (4 * s) ≤ p := by
      apply Nat.div_le_of_le_mul
      have key : p + 4 * s ≤ 4 * s * p + 1 := by
        obtain ⟨a, rfl⟩ : ∃ a, p = a + 1 := ⟨p - 1, by omega⟩
        obtain ⟨b, rfl⟩ : ∃ b, s = b + 1 := ⟨s - 1, by omega⟩
        have hab : 0 ≤ a * b := Nat.zero_le _
        nlinarith
      omega
    have hd1 : DivCeil p (s * 4 % 2 ^ 64) = some ((p + 4 * s - 1) / (4 * s)) := by
      rw [e2]
      unfold DivCeil
      rw [if_neg (by omega), e3]
    rw [hd1]
    generalize (p + 4 * s - 1) / (4 * s) = q at *
    have hq1 : 1 ≤ q := by
      by_contra hc
      have hq0 : q = 0 := by omega
      rw [hq0] at hq
      omega
    have e4 : q * 4 % 2 ^ 64 = 4 * q := by omega
    refine ⟨q, ((p + 4 * q + (2 ^ 64 - 1)) % 2 ^ 64) / (4 * q), rfl, by omega, ?_⟩
    rw [e4]
    unfold DivCeil
    rw [if_neg (by omega)]
  · by_cases hw : fs.writable path = true
    · obtain ⟨w, h, -, -, -, -, -, -, -, hok, -⟩ :=
        SaveEncodedFile_content fs path size compressed data hw hlen
      rw [hok]
      simp
    · rw [SaveEncodedFile_unwritable fs path size compressed data (by simpa using hw)]
      simp

theorem no_division_by_zero_witness :
    CalculateSize (16 + digits.length) ≠ none ∧
    (SaveEncodedFile digitsFS "digits.txt.bmp" 10 0 digits).2 ≠ .error .undefined :=
  (no_division_by_zero digitsFS "digits.txt.bmp" 10 0 digits (by decide)).2.2.2.2.2.2.2.2

/-- C16 (as stated) fails: the source applies no clamp. At `n = 0` the pixel count is 0, the
seed `side` is 0, the divisor `side * 4` of the width computation is 0 and `CalculateSize`
divides by zero. -/
theorem seed_is_not_clamped :
    ((0 + 3) % 2 ^ 64) / 4 = 0 ∧ sqrt_uint64_t (((0 + 3) % 2 ^ 64) / 4) = 0 ∧
    (sqrt_uint64_t (((0 + 3) % 2 ^ 64) / 4) * 4) % 2 ^ 64 = 0 ∧
    DivCeil (((0 + 3) % 2 ^ 64) / 4) ((sqrt_uint64_t (((0 + 3) % 2 ^ 64) / 4) * 4) % 2 ^ 64) =
      none ∧
    CalculateSize 0 = none := by
  have hs : sqrt_uint64_t (((0 + 3) % 2 ^ 64) / 4) = 0 := sqrt_uint64_t_zero
  refine ⟨by decide, hs, ?_, ?_, ?_⟩
  · rw [hs]
    decide
  · rw [hs]
    rfl
  · rw [CalculateSize_eq_none_iff]
    decide

/-- C16 (amended). `CalculateSize` applies no clamp to `side`: it divides by zero exactly
when `side` is 0, and `side` is 0 exactly when the pixel count `(n + 3) / 4`, computed in
`uint64_t`, is 0 (for `n = 0`, and where `n + 3` wraps); for every `n` with `1 ≤ n` and
`n + 3 < 2 ^ 64`, `side` is at least 1 when it is used as a divisor and a pair is
returned. -/
theorem seed_zero_iff (n : Nat) :
    (CalculateSize n = none ↔ sqrt_uint64_t (((n + 3) % 2 ^ 64) / 4) = 0) ∧
    (sqrt_uint64_t (((n + 3) % 2 ^ 64) / 4) = 0 ↔ ((n + 3) % 2 ^ 64) / 4 = 0) ∧
    (1 ≤ n → n + 3 < 2 ^ 64 →
      1 ≤ sqrt_uint64_t (((n + 3) % 2 ^ 64) / 4) ∧
      (sqrt_uint64_t (((n + 3) % 2 ^ 64) / 4) * 4) % 2 ^ 64 ≠ 0 ∧
      CalculateSize n ≠ none) := by
  have hiff : sqrt_uint64_t (((n + 3) % 2 ^ 64) / 4) = 0 ↔ ((n + 3) % 2 ^ 64) / 4 = 0 := by
    constructor
    · intro hs
      by_contra hne
      have hpos := sqrt_uint64_t_pos _ (Nat.one_le_iff_ne_zero.mpr hne)
      omega
    · intro hp
      rw [hp]
      exact sqrt_uint64_t_zero
  refine ⟨?_, hiff, ?_⟩
  · rw [CalculateSize_eq_none_iff, hiff]
  · intro h1 h2
    have hp : 1 ≤ ((n + 3) % 2 ^ 64) / 4 := by omega
    have hs1 := sqrt_uint64_t_pos _ hp
    have hs2 := sqrt_uint64_t_le (((n + 3) % 2 ^ 64) / 4) (by omega)
    refine ⟨hs1, by omega, ?_⟩
    rw [Ne, CalculateSize_eq_none_iff]
    omega

theorem seed_zero_iff_witness :
    1 ≤ sqrt_uint64_t (((16 + 3) % 2 ^ 64) / 4) ∧
    (sqrt_uint64_t (((16 + 3) % 2 ^ 64) / 4) * 4) % 2 ^ 64 ≠ 0 ∧ CalculateSize 16 ≠ none :=
  (seed_zero_iff 16).2.2 (by decide) (by decide)

/-- C17 (as stated) fails at `n = 2 ^ 56 - 4`: the pixel count is `p = 2 ^ 54 - 1`,
`side = floor(sqrt(p))` is `134217727`, and the pair returned is `(134217728, 134217728)`,
whose height exceeds `side`. -/
theorem canvas_height_exceeds_side :
    ceilDiv (2 ^ 56 - 4) 4 = 2 ^ 54 - 1 ∧ Nat.sqrt (ceilDiv (2 ^ 56 - 4) 4) = 134217727 ∧
    CalculateSize (2 ^ 56 - 4) = some (134217728, 134217728) ∧
    ¬ ((134217728 : Int) ≤ ((Nat.sqrt (ceilDiv (2 ^ 56 - 4) 4) : Nat) : Int)) := by
  have hp : ceilDiv (2 ^ 56 - 4) 4 = 2 ^ 54 - 1 := by
    rw [ceilDiv_four]
    norm_num
  have hs : Nat.sqrt (ceilDiv (2 ^ 56 - 4) 4) = 134217727 := by
    rw [hp]
    exact sqrt_eq_of_sq _ _ (by norm_num) (by norm_num)
  refine ⟨hp, hs, CalculateSize_round, ?_⟩
  rw [hs]
  decide

/-- C17 (amended). Near-square canvas: for every `n` with `1 ≤ n` and `n + 3 < 2 ^ 54`, with
`p = ceil(n / 4)` and `side = floor(sqrt(p))`, the pair `(w, h)` returned by
`CalculateSize n` satisfies `h ≤ side ≤ w ≤ side + 5` and `w * side ≥ p`; in particular the
canvas is never taller than it is wide. -/
theorem near_square_canvas (n : Nat) (h1 : 1 ≤ n) (h2 : n + 3 < 2 ^ 54) :
    ∃ w h : Int, CalculateSize n = some (w, h) ∧
      h ≤ ((Nat.sqrt (ceilDiv n 4) : Nat) : Int) ∧
      ((Nat.sqrt (ceilDiv n 4) : Nat) : Int) ≤ w ∧
      w ≤ ((Nat.sqrt (ceilDiv n 4) : Nat) : Int) + 5 ∧
      ((ceilDiv n 4 : Nat) : Int) ≤ w * ((Nat.sqrt (ceilDiv n 4) : Nat) : Int) ∧ h ≤ w := by
  obtain ⟨w, h, hc, -, -, -, hhs, hsw, hws, hwp, -, -, -, -, -⟩ := CalculateSize_exact n h1 h2
  rw [ceilDiv_four]
  refine ⟨w, h, hc, by exact_mod_cast hhs, by exact_mod_cast hsw, by exact_mod_cast hws,
    by exact_mod_cast hwp, ?_⟩
  have hle : h ≤ w := le_trans hhs hsw
  exact_mod_cast hle

theorem near_square_canvas_witness :
    ∃ w h : Int, CalculateSize 1000 = some (w, h) ∧
      h ≤ ((Nat.sqrt (ceilDiv 1000 4) : Nat) : Int) ∧
      ((Nat.sqrt (ceilDiv 1000 4) : Nat) : Int) ≤ w ∧
      w ≤ ((Nat.sqrt (ceilDiv 1000 4) : Nat) : Int) + 5 ∧
      ((ceilDiv 1000 4 : Nat) : Int) ≤ w * ((Nat.sqrt (ceilDiv 1000 4) : Nat) : Int) ∧ h ≤ w :=
  near_square_canvas 1000 (by decide) (by decide)

/-- C18. No 32-bit wrap-around for ordinary sizes: for every `n` with
`16 ≤ n ≤ 4000000000`, the `uint64_t` values `w` and `h` computed by `CalculateSize n` are
below `2 ^ 31`, so the conversion to `int32_t` leaves them unchanged, and
`4 * w * h + 54 < 2 ^ 32`; the header fields `pixels_size` and `size` hold exactly
`4 * w * h` and `4 * w * h + 54`, and the padding count `pixels_size - n` computed by
`SaveEncodedFile` in `uint64_t` is the difference of natural numbers, without underflow. -/
theorem no_wrap_for_ordinary_sizes (n : Nat) (h1 : 16 ≤ n) (h2 : n ≤ 4000000000) :
    ∃ w h : Nat,
      w = 4 * (((n + 3) / 4 + 4 * sqrt_uint64_t ((n + 3) / 4) - 1) /
        (4 * sqrt_uint64_t ((n + 3) / 4))) ∧
      h = ((n + 3) / 4 + w - 1) / w ∧
      w < 2 ^ 31 ∧ h < 2 ^ 31 ∧ toInt32 w = (w : Int) ∧ toInt32 h = (h : Int) ∧
      CalculateSize n = some ((w : Int), (h : Int)) ∧
      4 * w * h + 54 < 2 ^ 32 ∧
      (BMPHeader.new w h 4).pixels_size = 4 * w * h ∧
      (BMPHeader.new w h 4).size = 4 * w * h + 54 ∧
      n ≤ (BMPHeader.new w h 4).pixels_size ∧
      ((BMPHeader.new w h 4).pixels_size + (2 ^ 64 - n)) % 2 ^ 64 =
        (BMPHeader.new w h 4).pixels_size - n := by
  obtain ⟨w, h, hc, -, -, -, -, -, hcov, -, hfits⟩ := CalculateSize_fits n (by omega) h2
  obtain ⟨w2, h2, hc2, hwd, hhd, -, hw31, -, hhs, -, -⟩ := CalculateSize_eq n (by omega) (by omega)
  obtain ⟨rfl, rfl⟩ := CalculateSize_unique _ _ _ _ _ hc hc2
  have hs := sqrt_uint64_t_le ((n + 3) / 4) (by omega)
  have hh31 : h < 2 ^ 31 := by
    have hsq : sqrt_uint64_t ((n + 3) / 4) = Nat.sqrt ((n + 3) / 4) :=
      sqrt_uint64_t_of_lt _ (by omega)
    have hlt : Nat.sqrt ((n + 3) / 4) < 2 ^ 31 := by
      rw [Nat.sqrt_lt']
      norm_num
      omega
    omega
  have hp : (BMPHeader.new (w : Int) (h : Int) 4).pixels_size = 4 * (w * h) :=
    pixels_size_new_of_fits w h (by omega)
  have hsz : (BMPHeader.new (w : Int) (h : Int) 4).size = 4 * (w * h) + 54 := by
    rw [size_new, hp, Nat.mod_eq_of_lt hfits]
  have e : 4 * w * h = 4 * (w * h) := by ring
  refine ⟨w, h, hwd, hhd, hw31, hh31, toInt32_of_lt w hw31, toInt32_of_lt h hh31, hc, ?_, ?_,
    ?_, ?_, ?_⟩
  · rw [e]
    exact hfits
  · rw [e]
    exact hp
  · rw [e]
    exact hsz
  · rw [hp]
    exact hcov
  · rw [hp]
    omega

theorem no_wrap_for_ordinary_sizes_witness :
    ∃ w h : Nat,
      w = 4 * (((26 + 3) / 4 + 4 * sqrt_uint64_t ((26 + 3) / 4) - 1) /
        (4 * sqrt_uint64_t ((26 + 3) / 4))) ∧
      h = ((26 + 3) / 4 + w - 1) / w ∧
      w < 2 ^ 31 ∧ h < 2 ^ 31 ∧ toInt32 w = (w : Int) ∧ toInt32 h = (h : Int) ∧
      CalculateSize 26 = some ((w : Int), (h : Int)) ∧
      4 * w * h + 54 < 2 ^ 32 ∧
      (BMPHeader.new w h 4).pixels_size = 4 * w * h ∧
      (BMPHeader.new w h 4).size = 4 * w * h + 54 ∧
      26 ≤ (BMPHeader.new w h 4).pixels_size ∧
      ((BMPHeader.new w h 4).pixels_size + (2 ^ 64 - 26)) % 2 ^ 64 =
        (BMPHeader.new w h 4).pixels_size - 26 :=
  no_wrap_for_ordinary_sizes 26 (by decide) (by decide)

/-- C19. Failure before the destination is touched: when `EncodeFile` fails because the
source cannot be opened or because compression fails, and when `DecodeFile` fails because
the image cannot be opened, because decompression fails or because it reports a size
mismatch (or with any other exception of `LoadEncodedFile`), the file system returned is
the one given, whether or not the destination could have been opened: the destination is
not opened for writing, not created and not truncated, and the error is that of the
failing step. -/
theorem failure_leaves_destination (zstd : Zstd) (fs : FileSystem)
    (input_path output_path : String) :
    (∀ compress : Bool, fs.content input_path = none →
      EncodeFile zstd fs input_path output_path compress =
        (fs, .error (.runtime_error ("Couldn't open '" ++ input_path ++ "' for reading")))) ∧
    (∀ (B : List Byte) (name : String), fs.content input_path = some B → B.length < 2 ^ 64 →
      zstd.compress (zstd.compressBound B.length) B = .error name →
      EncodeFile zstd fs input_path output_path true = (fs, .error (.runtime_error name))) ∧
    (fs.content input_path = none →
      DecodeFile zstd fs input_path output_path =
        (fs, .error (.runtime_error ("Couldn't open '" ++ input_path ++ "' for reading")))) ∧
    (∀ what : String, LoadEncodedFile zstd fs input_path = .error (.runtime_error what) →
      DecodeFile zstd fs input_path output_path = (fs, .error (.runtime_error what))) ∧
    (∀ (hdr data rest : List Byte) (original_size stored_size : Nat) (name : String),
      hdr.length = 54 → original_size < 2 ^ 64 → stored_size < 2 ^ 64 → stored_size ≠ 0 →
      data.length = stored_size →
      fs.content input_path =
        some (hdr ++ (leBytes 8 original_size ++ (leBytes 8 stored_size ++ (data ++ rest)))) →
      zstd.decompress original_size data = .error name →
      DecodeFile zstd fs input_path output_path = (fs, .error (.runtime_error name))) ∧
    (∀ (hdr data rest out : List Byte) (original_size stored_size : Nat),
      hdr.length = 54 → original_size < 2 ^ 64 → stored_size < 2 ^ 64 → stored_size ≠ 0 →
      data.length = stored_size →
      fs.content input_path =
        some (hdr ++ (leBytes 8 original_size ++ (leBytes 8 stored_size ++ (data ++ rest)))) →
      zstd.decompress original_size data = .ok out → out.length ≠ original_size →
      DecodeFile zstd fs input_path output_path =
        (fs, .error (.runtime_error "Size mismatch"))) := by
  refine ⟨?_, ?_, ?_, ?_, ?_, ?_⟩
  · intro compress hin
    unfold EncodeFile ReadEntireFile OpenFileRead
    rw [hin]
  · intro B name hin hlen hcomp
    unfold EncodeFile Compress
    rw [ReadEntireFile_eq fs input_path B hin hlen]
    simp only [hcomp, if_true]
  · intro hin
    exact DecodeFile_of_load_error zstd fs input_path output_path _
      (LoadEncodedFile_unreadable zstd fs input_path hin)
  · intro what hload
    exact DecodeFile_of_load_error zstd fs input_path output_path _ hload
  · intro hdr data rest original_size stored_size name hh hs hc hc0 hdl hfile hdec
    apply DecodeFile_of_load_error
    rw [LoadEncodedFile_stream zstd fs input_path hdr (data ++ rest) original_size stored_size
      hh hs hc hfile, if_pos hc0, if_pos (by rw [List.length_append]; omega),
      List.take_left' hdl]
    unfold Decompress
    rw [hdec]
  · intro hdr data rest out original_size stored_size hh hs hc hc0 hdl hfile hdec hne
    apply DecodeFile_of_load_error
    rw [LoadEncodedFile_stream zstd fs input_path hdr (data ++ rest) original_size stored_size
      hh hs hc hfile, if_pos hc0, if_pos (by rw [List.length_append]; omega),
      List.take_left' hdl]
    unfold Decompress
    rw [hdec]
    simp only
    rw [if_pos hne]

theorem failure_leaves_destination_witness :
    EncodeFile failingZstd readOnlyFS "digits.txt" "digits.txt.bmp" true =
      (readOnlyFS, .error (.runtime_error "Allocation error : not enough memory")) :=
  (failure_leaves_destination failingZstd readOnlyFS "digits.txt" "digits.txt.bmp").2.1
    digits "Allocation error : not enough memory" (by decide) (by decide) rfl

end Imcode
